import Mathlib

/-!
Verification development for `fms/utils/generation.py`: the greedy `generate`
entry point, `truncate_after_eos`, and the paged-cache `speculative_generate`
round loop.

Modelling conventions (shallow embedding):
* token ids are natural numbers; the pad token is 0, as the source assumes;
* the base model is abstracted as a function `m : List Token → Token` giving
  the argmax next token of an attended token context, and the speculator as
  `spk : List Token → Token → List (List Token)` giving the `top_k` candidate
  suffixes from a state embedding (identified with the token context it is a
  function of) and the last accepted token;
* the paged KV cache (`PagedKVCache`, referenced but not defined in the
  sources) is modelled from the spec as sequence-id-indexed token storage
  with allocate / branch / free / trim operations plus alloc/free counters;
* the `max_seq_len` sliding-window truncation is not modelled: prompts are
  assumed shorter than the context window, the regime all claims speak about.
-/

namespace FMS

abbrev Token := Nat

/-- Sum of a 0/1 cumulative product along a row, i.e. the length of the
maximal all-`true` prefix: `test.cumprod(1).sum(1)` in the source. -/
def leadingOnes (l : List Bool) : Nat := (l.takeWhile (fun b => b)).length

/-- `torch.roll(x, -1, dims=1)` on one row: rotate left by one position. -/
def rollL : List Token → List Token
  | [] => []
  | a :: t => t ++ [a]

/-- Maximum of a list of naturals (0 for the empty list). -/
def maxList : List Nat → Nat
  | [] => 0
  | a :: t => max a (maxList t)

/-- `min(tensor)` over a nonempty list (0 for the empty list). -/
def minList : List Nat → Nat
  | [] => 0
  | a :: t => t.foldl min a

/-- `torch.argmax` along a list: the index of the first occurrence of the
maximum, which is the tie-breaking behaviour `best_guess = n_correct.argmax(0)`
relies on. -/
def argmaxFirst : List Nat → Nat
  | [] => 0
  | a :: t => if maxList t ≤ a then 0 else argmaxFirst t + 1

/-! ### The paged KV cache

Modelled from the spec: the `PagedKVCache` collaborator is referenced by the
source (`allocate_initial_prompt`, `add_child_sequences`,
`allocate_generated_token`, `free_sequences`, `remove_tokens`) but its
implementation is not among the sources.  Per the spec it owns key/value
history storage addressed by sequence identifier, children branch off a
parent sharing its stored history, freeing releases storage, and removing
tokens trims trailing storage.  We record, per live sequence id, the token
context whose key/value history the id stores, and we count allocated and
freed identifiers. -/
structure PagedKVCache where
  store : Nat → Option (List Token)
  nextId : Nat
  allocCount : Nat
  freedCount : Nat

def emptyCache : PagedKVCache := ⟨fun _ => none, 0, 0, 0⟩

/-- Stored token context of a sequence id (the empty context if unknown). -/
def PagedKVCache.lookup (c : PagedKVCache) (sid : Nat) : List Token :=
  (c.store sid).getD []

/-- Whether a sequence id is currently allocated. -/
def PagedKVCache.isAlive (c : PagedKVCache) (sid : Nat) : Bool :=
  (c.store sid).isSome

/-- Modelled from the spec: `allocate_initial_prompt(tokens)` assigns one
fresh sequence id per batch row and stores that row's tokens as the row's
context; the returned metadata carries the assigned `sequence_ids`. -/
def PagedKVCache.allocate_initial_prompt (c : PagedKVCache)
    (rows : List (List Token)) : PagedKVCache × List Nat :=
  (⟨fun sid =>
      if c.nextId ≤ sid ∧ sid < c.nextId + rows.length then
        some (rows.getD (sid - c.nextId) [])
      else c.store sid,
    c.nextId + rows.length,
    c.allocCount + rows.length,
    c.freedCount⟩,
   (List.range rows.length).map (fun j => c.nextId + j))

/-- Modelled from the spec: `add_child_sequences(parent_id, k)` repeatedly
allocates `k` fresh child ids, each sharing the parent's stored history
(copy-on-branch). -/
def PagedKVCache.add_child_sequences (c : PagedKVCache) (parent : Nat)
    (k : Nat) : PagedKVCache × List Nat :=
  (⟨fun sid =>
      if c.nextId ≤ sid ∧ sid < c.nextId + k then some (c.lookup parent)
      else c.store sid,
    c.nextId + k,
    c.allocCount + k,
    c.freedCount⟩,
   (List.range k).map (fun j => c.nextId + j))

/-- Modelled from the spec: `allocate_generated_token(sequence_ids, count)`
reserves `count` new slots on each listed sequence; the verification forward
pass then writes the `count` input tokens of the metadata-paired batch row
into them.  We model reservation and write together: sequence `sids[j]`
receives the tokens of batch row `j`. -/
def PagedKVCache.allocate_generated_token (c : PagedKVCache)
    (sids : List Nat) (rows : List (List Token)) : PagedKVCache :=
  { c with store := fun sid =>
      (match (sids.zip rows).find? (fun pr => pr.1 == sid) with
       | some pr => (c.store sid).map (fun t => t ++ pr.2)
       | none => c.store sid) }

/-- Modelled from the spec: `free_sequences(ids)` releases the storage of the
listed sequence ids. -/
def PagedKVCache.free_sequences (c : PagedKVCache) (sids : List Nat) :
    PagedKVCache :=
  { c with
    store := fun sid => if sid ∈ sids then none else c.store sid
    freedCount := c.freedCount + sids.length }

/-- Modelled from the spec: `remove_tokens(sequence_id, count)` trims `count`
tokens from the sequence's trailing storage. -/
def PagedKVCache.remove_tokens (c : PagedKVCache) (sid : Nat) (count : Nat) :
    PagedKVCache :=
  { c with store := fun x =>
      if x = sid then (c.store x).map (fun t => t.take (t.length - count))
      else c.store x }

/-! ### `truncate_after_eos` -/

/-- `truncate_after_eos(result, eos_token_id)`: `torch.where` lists the
indices of `eos_token_id` in order; when at least one exists the result is
sliced up to and including the first one. -/
def truncate_after_eos (result : List Token) (eos_token_id : Option Token) :
    List Token :=
  match eos_token_id with
  | none => result
  | some e =>
    match result.findIdx? (fun t => t == e) with
    | some i => result.take (i + 1)
    | none => result

/-! ### `generate` (greedy path) -/

inductive GenError where
  | notImplementedBeamSearch
  | requiresTokenTensor
deriving DecidableEq, Repr

/-- The `input_ids` argument of `generate`: a 1-d tensor, a 2-d (batched)
tensor, or something that is not a tensor of token ids at all. -/
inductive GenInput where
  | tensor1d (toks : List Token)
  | tensor2d (rows : List (List Token))
  | notTensor
deriving Repr

/-- The greedy decode loop of `generate` (`do_sample=False`, no cache):
each step appends `argmax` of the logits at the last position, a function of
the whole context so far. -/
def generateGreedy (m : List Token → Token) (input_ids : List Token) :
    Nat → List Token
  | 0 => input_ids
  | n + 1 => generateGreedy m (input_ids ++ [m input_ids]) n

/-- `generate`: the beam-search guard and the tensor-type guard run before
anything else; the greedy (`do_sample=False`) body decodes each row.  An
unbatched input is unsqueezed to a single row and squeezed back. -/
def generate (m : List Token → Token) (input_ids : GenInput)
    (max_new_tokens : Nat) (num_beams : Nat) :
    Except GenError (List (List Token)) :=
  if num_beams ≠ 1 then .error .notImplementedBeamSearch
  else
    match input_ids with
    | .notTensor => .error .requiresTokenTensor
    | .tensor1d toks => .ok [generateGreedy m toks max_new_tokens]
    | .tensor2d rows => .ok (rows.map (fun r => generateGreedy m r max_new_tokens))

/-! ### `speculative_generate`

The round loop operates on a batch of `bsize` logical sequences.  The flat
verification batch has `top_k * bsize` rows; the source builds it in
candidate-major order (`inputs` is viewed as `k b 1+h` and flattened, so flat
row `r` holds candidate `r / bsize` of sequence `r % bsize`), while the list
of child sequence ids handed to the cache is parent-major
(`child_sequence_ids_flattened[r]` is child `r % top_k` of parent
`r / top_k`).  Both orders are reproduced exactly. -/

structure SDParams where
  m : List Token → Token
  spk : List Token → Token → List (List Token)
  top_k : Nat
  n_adds : Nat
  new_tokens : Nat

structure SpecState where
  result : List (List Token)
  nGen : List Nat
  cache : PagedKVCache
  parentIds : List Nat
  embedCtxs : List (List Token)
  lastToks : List Token
  nSteps : Nat

def bsizeOf (s : SpecState) : Nat := s.parentIds.length

/-- The `top_k` candidate rows of sequence `i`: the last accepted token
prepended to each speculator suffix (`torch.cat([inputs, adds], dim=-1)`). -/
def candsOf (p : SDParams) (s : SpecState) (i : Nat) : List (List Token) :=
  (p.spk (s.embedCtxs.getD i []) (s.lastToks.getD i 0)).map
    (fun sfx => s.lastToks.getD i 0 :: sfx)

/-- Flat verification-batch row `r` in candidate-major order. -/
def rowInput (p : SDParams) (s : SpecState) (r : Nat) : List Token :=
  (candsOf p s (r % bsizeOf s)).getD (r / bsizeOf s) []

/-- The cached context flat row `r` attends to: the cache pairs row `r` with
`child_sequence_ids_flattened[r]`, a child (hence sharing the history) of
parent `r / top_k`. -/
def rowCtx (p : SDParams) (s : SpecState) (r : Nat) : List Token :=
  s.cache.lookup (s.parentIds.getD (r / p.top_k) 0)

/-- Per-position argmax outputs of the verification pass on one row: position
`j` attends to the cached context plus the row's first `j + 1` new tokens. -/
def predsRow (m : List Token → Token) (ctx cand : List Token) : List Token :=
  (List.range cand.length).map (fun j => m (ctx ++ cand.take (j + 1)))

/-- `next_vals = torch.argmax(logits, dim=-1)` for flat row `r`. -/
def rowNextVals (p : SDParams) (s : SpecState) (r : Nat) : List Token :=
  predsRow p.m (rowCtx p s r) (rowInput p s r)

/-- `test = inputs.roll(-1, 1).eq(next_vals).cumprod(1)` for flat row `r`
(as the list of cumulative-product bits). -/
def testRow (p : SDParams) (s : SpecState) (r : Nat) : List Bool :=
  List.zipWith (fun a b => a == b) (rollL (rowInput p s r)) (rowNextVals p s r)

/-- `n_correct = test.sum(1).clamp(0, n_adds - 1)` for flat row `r`. -/
def nCorrectRow (p : SDParams) (s : SpecState) (r : Nat) : Nat :=
  min (leadingOnes (testRow p s r)) (p.n_adds - 1)

/-- The `top_k` correctness counts of sequence `i`
(`n_correct.view(top_k, bsize)` read along the candidate axis). -/
def ncListOf (p : SDParams) (s : SpecState) (i : Nat) : List Nat :=
  (List.range p.top_k).map (fun c => nCorrectRow p s (c * bsizeOf s + i))

/-- `best_guess = n_correct.argmax(0)` for sequence `i`. -/
def bestOf (p : SDParams) (s : SpecState) (i : Nat) : Nat :=
  argmaxFirst (ncListOf p s i)

/-- The selected candidate's correctness count for sequence `i`. -/
def ncOf (p : SDParams) (s : SpecState) (i : Nat) : Nat :=
  (ncListOf p s i).getD (bestOf p s i) 0

/-- Flat row index of sequence `i`'s selected candidate in the
candidate-major ordering used by the `next_vals`/`embeds` gathers. -/
def selRow (p : SDParams) (s : SpecState) (i : Nat) : Nat :=
  bestOf p s i * bsizeOf s + i

/-- `next_vals_split[i][: n_correct[i] + 1]`: the tokens emitted for
sequence `i` this round. -/
def acceptedOf (p : SDParams) (s : SpecState) (i : Nat) : List Token :=
  (rowNextVals p s (selRow p s i)).take (ncOf p s i + 1)

/-- The context whose embedding is gathered for sequence `i`
(`embeds` at position `n_correct` of the selected candidate-major row). -/
def newEmbedCtx (p : SDParams) (s : SpecState) (i : Nat) : List Token :=
  rowCtx p s (selRow p s i) ++ (rowInput p s (selRow p s i)).take (ncOf p s i + 1)

/-- The per-parent branching loop: each parent receives `top_k` child
sequences, in parent order. -/
def addChildrenAll (c : PagedKVCache) (parents : List Nat) (k : Nat) :
    PagedKVCache × List (List Nat) :=
  match parents with
  | [] => (c, [])
  | pid :: rest =>
    let pr := c.add_child_sequences pid k
    let rec' := addChildrenAll pr.1 rest k
    (rec'.1, pr.2 :: rec'.2)

/-- The per-parent reconciliation loop: free the non-winning children, keep
the winning child as the new parent, and trim its trailing storage by
`n_adds - n_correct - 1`.  Each triple is `(child ids, best index,
n_correct)`. -/
def reconcilePhase (n_adds : Nat) (c : PagedKVCache)
    (triples : List (List Nat × Nat × Nat)) : PagedKVCache × List Nat :=
  match triples with
  | [] => (c, [])
  | tr :: rest =>
    let cids := tr.1
    let best := tr.2.1
    let nc := tr.2.2
    let c1 := c.free_sequences (cids.take best ++ cids.drop (best + 1))
    let c2 := c1.remove_tokens (cids.getD best 0) (n_adds - nc - 1)
    let pr := reconcilePhase n_adds c2 rest
    (pr.1, cids.getD best 0 :: pr.2)

/-- One round of the `while min(n_gen) < new_tokens` loop. -/
def specStep (p : SDParams) (s : SpecState) : SpecState :=
  let b := bsizeOf s
  let branched := addChildrenAll s.cache s.parentIds p.top_k
  let childIdsList := branched.2
  let childFlat := childIdsList.flatten
  let rows := (List.range (p.top_k * b)).map (rowInput p s)
  let c2 := branched.1.allocate_generated_token childFlat rows
  let bests := (List.range b).map (bestOf p s)
  let ncs := (List.range b).map (ncOf p s)
  let rec2 := reconcilePhase p.n_adds c2 (childIdsList.zip (bests.zip ncs))
  { result := (List.range b).map (fun i => s.result.getD i [] ++ acceptedOf p s i)
    nGen := (List.range b).map (fun i => s.nGen.getD i 0 + (ncOf p s i + 1))
    cache := rec2.1
    parentIds := rec2.2
    embedCtxs := (List.range b).map (newEmbedCtx p s)
    lastToks := (List.range b).map (fun i => (acceptedOf p s i).getLastD 0)
    nSteps := s.nSteps + 1 }

/-- The round loop, run on fuel: `while min(n_gen) < new_tokens`.  Every
round generates at least one token per sequence, so `new_tokens` units of
fuel always suffice (proved below). -/
def specLoop (p : SDParams) : Nat → SpecState → SpecState
  | 0, s => s
  | fuel + 1, s =>
    if p.new_tokens ≤ minList s.nGen then s
    else specLoop p fuel (specStep p s)

/-- Left padding of sequence `i` to the common length
(`F.pad(input_ids[i], (n_pads_init[i], 0))`). -/
def padRow (max_len : Nat) (row : List Token) : List Token :=
  List.replicate (max_len - row.length) 0 ++ row

/-- The state after the priming pass: the cache holds, per sequence, the
padded prompt minus its last token (`allocate_initial_prompt(inputs[:, :-1])`),
the gathered embedding is that of the last primed position, and the pending
input is the prompt's last token (`inputs[:, -1:]`). -/
def initState (input_ids : List (List Token)) : SpecState :=
  let max_len := maxList (input_ids.map List.length)
  let padded := input_ids.map (padRow max_len)
  let primed := emptyCache.allocate_initial_prompt (padded.map List.dropLast)
  { result := input_ids
    nGen := List.replicate input_ids.length 0
    cache := primed.1
    parentIds := primed.2
    embedCtxs := padded.map List.dropLast
    lastToks := padded.map (fun r => r.getLastD 0)
    nSteps := 0 }

/-- The final state of a `speculative_generate` run. -/
def runState (p : SDParams) (input_ids : List (List Token)) : SpecState :=
  specLoop p p.new_tokens (initState input_ids)

/-- `speculative_generate(model, input_ids, speculator, ...)`:
returns the per-sequence results and the number of rounds executed. -/
def speculative_generate (p : SDParams) (input_ids : List (List Token)) :
    List (List Token) × Nat :=
  ((runState p input_ids).result, (runState p input_ids).nSteps)

/-- Stored context length of sequence `i`'s cache handle. -/
def storedLen (s : SpecState) (i : Nat) : Nat :=
  (s.cache.lookup (s.parentIds.getD i 0)).length

/-! ### The priming mask and position ids (lines 221-240)

The mask built for the priming pass is
`mask = tril(ones).mul(pad_mask).logical_or(eye).log()`, where
`pad_mask[b, j] = (j - (n_pads[b] - 1)).clamp(0, 1)`.  An entry of the
logical mask is `1` (so `log` gives `0`, attendable) or `0` (so `log` gives
`-∞`, masked).  `primingAttend npads b i j` is that boolean entry for batch
row `b`, query position `i`, key position `j`. -/
def primingAttend (npads : List Nat) (b i j : Nat) : Bool :=
  (decide (j ≤ i) && decide (npads.getD b 0 ≤ j)) || i == j

/-- The dead local `pos_ids` of the priming pass (lines 239-240):
`arange(n - 1)` minus the per-sequence pad count. -/
def pos_ids (npads : List Nat) (b j : Nat) : Int :=
  (j : Int) - npads.getD b 0

/-- Number of leading pad slots (pad token 0) of a padded row. -/
def countLeadingPads (row : List Token) : Nat :=
  (row.takeWhile (fun t => t == 0)).length

/-- Modelled from the spec: the `position_offset` metadata produced by
`PagedKVCache.allocate_initial_prompt` (absent from the sources) assigns
left-pad-aware positions — `arange` over the stored row offset so that the
first real (non-pad) token sits at position 0 (spec §4.1, §8.5). -/
def position_offset (rows : List (List Token)) : List (List Int) :=
  rows.map (fun row =>
    (List.range row.length).map
      (fun (j : Nat) => (j : Int) - countLeadingPads row))

/-! ### Basic lemmas about the list helpers -/

theorem getD_map_range {α : Type} (n : Nat) (f : Nat → α) (i : Nat)
    (h : i < n) (d : α) : ((List.range n).map f).getD i d = f i := by
  simp [List.getD, List.getElem?_map, List.getElem?_range, h]

theorem getD_eq_getElem {α : Type} (l : List α) (i : Nat) (h : i < l.length)
    (d : α) : l.getD i d = l[i] := by
  simp [List.getD, List.getElem?_eq_getElem, h]

theorem le_maxList {l : List Nat} {x : Nat} (h : x ∈ l) : x ≤ maxList l := by
  induction l with
  | nil => cases h
  | cons a t ih =>
    rcases List.mem_cons.mp h with h1 | h2
    · simp [maxList, h1]
    · exact le_trans (ih h2) (by simp [maxList])

theorem maxList_mem {l : List Nat} (h : l ≠ []) : maxList l ∈ l := by
  induction l with
  | nil => simp at h
  | cons a t ih =>
    by_cases ht : t = []
    · subst ht; simp [maxList]
    · rcases max_cases a (maxList t) with ⟨heq, _⟩ | ⟨heq, _⟩
      · simp [maxList, heq]
      · simpa [maxList, heq] using Or.inr (ih ht)

theorem foldl_min_le {t : List Nat} : ∀ a : Nat, t.foldl min a ≤ a := by
  induction t with
  | nil => intro a; simp
  | cons b t ih =>
    intro a
    exact le_trans (ih (min a b)) (min_le_left a b)

theorem foldl_min_le_of_mem {t : List Nat} {x : Nat} (h : x ∈ t) :
    ∀ a : Nat, t.foldl min a ≤ x := by
  induction t with
  | nil => cases h
  | cons b t ih =>
    intro a
    rcases List.mem_cons.mp h with h1 | h2
    · subst h1
      exact le_trans (foldl_min_le (min a x)) (min_le_right a x)
    · exact ih h2 (min a b)

theorem le_foldl_min {t : List Nat} {n : Nat} (hall : ∀ x ∈ t, n ≤ x) :
    ∀ a : Nat, n ≤ a → n ≤ t.foldl min a := by
  induction t with
  | nil => intro a ha; simpa using ha
  | cons b t ih =>
    intro a ha
    exact ih (fun x hx => hall x (List.mem_cons_of_mem b hx))
      (min a b) (le_min ha (hall b (List.mem_cons_self b t)))

theorem minList_le_of_mem {l : List Nat} {x : Nat} (h : x ∈ l) :
    minList l ≤ x := by
  cases l with
  | nil => cases h
  | cons a t =>
    rcases List.mem_cons.mp h with h1 | h2
    · subst h1; exact foldl_min_le _
    · exact foldl_min_le_of_mem h2 a

theorem le_minList {l : List Nat} {n : Nat} (hne : l ≠ [])
    (hall : ∀ x ∈ l, n ≤ x) : n ≤ minList l := by
  cases l with
  | nil => simp at hne
  | cons a t =>
    exact le_foldl_min (fun x hx => hall x (List.mem_cons_of_mem a hx)) a
      (hall a (List.mem_cons_self a t))

theorem foldl_min_mem {t : List Nat} : ∀ a : Nat, t.foldl min a ∈ a :: t := by
  induction t with
  | nil => intro a; simp
  | cons b t ih =>
    intro a
    have h := ih (min a b)
    rcases List.mem_cons.mp h with h1 | h2
    · rcases min_cases a b with ⟨heq, _⟩ | ⟨heq, _⟩
      · rw [List.foldl_cons, h1, heq]; exact List.mem_cons_self a _
      · rw [List.foldl_cons, h1, heq]
        exact List.mem_cons_of_mem a (List.mem_cons_self b t)
    · exact List.mem_cons_of_mem a (List.mem_cons_of_mem b h2)

theorem minList_mem {l : List Nat} (h : l ≠ []) : minList l ∈ l := by
  cases l with
  | nil => simp at h
  | cons a t => exact foldl_min_mem a

theorem argmaxFirst_lt {l : List Nat} (h : l ≠ []) :
    argmaxFirst l < l.length := by
  induction l with
  | nil => simp at h
  | cons a t ih =>
    by_cases hc : maxList t ≤ a
    · simp [argmaxFirst, hc]
    · have ht : t ≠ [] := by
        intro he; subst he; exact hc (Nat.zero_le a)
      simpa [argmaxFirst, hc] using ih ht

theorem getD_argmaxFirst {l : List Nat} (h : l ≠ []) :
    l.getD (argmaxFirst l) 0 = maxList l := by
  induction l with
  | nil => simp at h
  | cons a t ih =>
    by_cases hc : maxList t ≤ a
    · simp [argmaxFirst, hc, maxList, Nat.max_eq_left hc]
    · have ht : t ≠ [] := by
        intro he; subst he; exact hc (Nat.zero_le a)
      have hlt : a < maxList t := Nat.lt_of_not_le hc
      rw [argmaxFirst, if_neg hc, List.getD_cons_succ, ih ht]
      simp [maxList, Nat.max_eq_right (Nat.le_of_lt hlt)]

theorem getD_lt_of_lt_argmaxFirst {l : List Nat} {j : Nat}
    (h : j < argmaxFirst l) : l.getD j 0 < maxList l := by
  induction l generalizing j with
  | nil => simp [argmaxFirst] at h
  | cons a t ih =>
    by_cases hc : maxList t ≤ a
    · simp [argmaxFirst, hc] at h
    · have hlt : a < maxList t := Nat.lt_of_not_le hc
      rw [argmaxFirst, if_neg hc] at h
      have hmax : maxList (a :: t) = maxList t := by
        simp [maxList, Nat.max_eq_right (Nat.le_of_lt hlt)]
      cases j with
      | zero => simpa [hmax] using hlt
      | succ j' =>
        have := ih (Nat.lt_of_succ_lt_succ h)
        simpa [hmax] using this

theorem leadingOnes_nil : leadingOnes [] = 0 := rfl

theorem leadingOnes_cons_true (l : List Bool) :
    leadingOnes (true :: l) = leadingOnes l + 1 := by
  simp [leadingOnes, List.takeWhile]

theorem leadingOnes_cons_false (l : List Bool) :
    leadingOnes (false :: l) = 0 := by
  simp [leadingOnes, List.takeWhile]

theorem leadingOnes_le_length (l : List Bool) : leadingOnes l ≤ l.length :=
  List.Sublist.length_le (List.takeWhile_sublist _)

theorem getD_mem {α : Type} (l : List α) (i : Nat) (h : i < l.length)
    (d : α) : l.getD i d ∈ l := by
  rw [List.getD_eq_getElem l d h]; exact List.getElem_mem h

theorem leadingOnes_append (xs ys : List Bool) :
    leadingOnes (xs ++ ys) =
      if leadingOnes xs = xs.length then xs.length + leadingOnes ys
      else leadingOnes xs := by
  induction xs with
  | nil => simp [leadingOnes_nil]
  | cons a xs ih =>
    cases a with
    | false => simp [leadingOnes_cons_false]
    | true =>
      rw [List.cons_append, leadingOnes_cons_true, leadingOnes_cons_true, ih]
      by_cases hc : leadingOnes xs = xs.length
      · simp [hc, List.length_cons]
        omega
      · have : ¬(leadingOnes xs + 1 = xs.length + 1) := by omega
        simp [hc, List.length_cons, this]

/-! ### Pointwise lemmas about the cache operations -/

/-- Well-formedness: ids at or above the allocation frontier are unassigned. -/
def cacheWF (c : PagedKVCache) : Prop :=
  ∀ sid, c.nextId ≤ sid → c.store sid = none

theorem add_child_store_lt (c : PagedKVCache) (parent k sid : Nat)
    (h : sid < c.nextId) :
    (c.add_child_sequences parent k).1.store sid = c.store sid := by
  have : ¬(c.nextId ≤ sid ∧ sid < c.nextId + k) := by omega
  simp [PagedKVCache.add_child_sequences, this]

theorem add_child_store_new (c : PagedKVCache) (parent k j : Nat)
    (hj : j < k) :
    (c.add_child_sequences parent k).1.store (c.nextId + j) =
      some (c.lookup parent) := by
  have : c.nextId ≤ c.nextId + j ∧ c.nextId + j < c.nextId + k := by omega
  simp [PagedKVCache.add_child_sequences, this]

theorem add_child_nextId (c : PagedKVCache) (parent k : Nat) :
    (c.add_child_sequences parent k).1.nextId = c.nextId + k := rfl

theorem add_child_allocCount (c : PagedKVCache) (parent k : Nat) :
    (c.add_child_sequences parent k).1.allocCount = c.allocCount + k := rfl

theorem add_child_freedCount (c : PagedKVCache) (parent k : Nat) :
    (c.add_child_sequences parent k).1.freedCount = c.freedCount := rfl

theorem add_child_ids (c : PagedKVCache) (parent k : Nat) :
    (c.add_child_sequences parent k).2 =
      (List.range k).map (fun j => c.nextId + j) := rfl

theorem agt_store_not_mem (c : PagedKVCache) (sids : List Nat)
    (rows : List (List Token)) (sid : Nat) (h : sid ∉ sids) :
    (c.allocate_generated_token sids rows).store sid = c.store sid := by
  have hfind : (sids.zip rows).find? (fun pr => pr.1 == sid) = none := by
    apply List.find?_eq_none.mpr
    intro pr hpr
    have h1 : pr.1 ∈ sids := (List.of_mem_zip hpr).1
    simp only [beq_iff_eq]
    intro he; exact h (he ▸ h1)
  simp [PagedKVCache.allocate_generated_token, hfind]

theorem find_zip_at (sids : List Nat) (rows : List (List Token)) (j : Nat)
    (hj : j < sids.length) (hr : j < rows.length)
    (hne : ∀ i, i < j → sids.getD i 0 ≠ sids.getD j 0) :
    (sids.zip rows).find? (fun pr => pr.1 == sids.getD j 0) =
      some (sids.getD j 0, rows.getD j []) := by
  induction sids generalizing rows j with
  | nil => simp at hj
  | cons a s ih =>
    cases rows with
    | nil => simp at hr
    | cons r rs =>
      cases j with
      | zero => simp [List.zip, List.find?]
      | succ j' =>
        have hne0 : a ≠ (a :: s).getD (j' + 1) 0 := hne 0 (Nat.succ_pos j')
        rw [List.getD_cons_succ] at hne0 ⊢
        have : ((a, r) :: s.zip rs).find? (fun pr => pr.1 == s.getD j' 0) =
            (s.zip rs).find? (fun pr => pr.1 == s.getD j' 0) :=
          List.find?_cons_of_neg _ (by simpa using hne0)
        rw [show (a :: s).zip (r :: rs) = (a, r) :: s.zip rs from rfl, this]
        exact ih rs j' (Nat.lt_of_succ_lt_succ hj) (Nat.lt_of_succ_lt_succ hr)
          (fun i hi => by
            have := hne (i + 1) (Nat.succ_lt_succ hi)
            rwa [List.getD_cons_succ, List.getD_cons_succ] at this)

theorem agt_store_at (c : PagedKVCache) (sids : List Nat)
    (rows : List (List Token)) (j : Nat) (hj : j < sids.length)
    (hr : j < rows.length)
    (hne : ∀ i, i < j → sids.getD i 0 ≠ sids.getD j 0) :
    (c.allocate_generated_token sids rows).store (sids.getD j 0) =
      (c.store (sids.getD j 0)).map (fun t => t ++ rows.getD j []) := by
  have hf := find_zip_at sids rows j hj hr hne
  simp only [PagedKVCache.allocate_generated_token]
  rw [hf]

theorem agt_nextId (c : PagedKVCache) (sids : List Nat)
    (rows : List (List Token)) :
    (c.allocate_generated_token sids rows).nextId = c.nextId := rfl

theorem agt_allocCount (c : PagedKVCache) (sids : List Nat)
    (rows : List (List Token)) :
    (c.allocate_generated_token sids rows).allocCount = c.allocCount := rfl

theorem agt_freedCount (c : PagedKVCache) (sids : List Nat)
    (rows : List (List Token)) :
    (c.allocate_generated_token sids rows).freedCount = c.freedCount := rfl

theorem free_store_not_mem (c : PagedKVCache) (sids : List Nat) (sid : Nat)
    (h : sid ∉ sids) : (c.free_sequences sids).store sid = c.store sid := by
  simp [PagedKVCache.free_sequences, h]

theorem free_store_mem (c : PagedKVCache) (sids : List Nat) (sid : Nat)
    (h : sid ∈ sids) : (c.free_sequences sids).store sid = none := by
  simp [PagedKVCache.free_sequences, h]

theorem free_freedCount (c : PagedKVCache) (sids : List Nat) :
    (c.free_sequences sids).freedCount = c.freedCount + sids.length := rfl

theorem free_nextId (c : PagedKVCache) (sids : List Nat) :
    (c.free_sequences sids).nextId = c.nextId := rfl

theorem free_allocCount (c : PagedKVCache) (sids : List Nat) :
    (c.free_sequences sids).allocCount = c.allocCount := rfl

theorem remove_store_eq (c : PagedKVCache) (sid count : Nat) :
    (c.remove_tokens sid count).store sid =
      (c.store sid).map (fun t => t.take (t.length - count)) := by
  simp [PagedKVCache.remove_tokens]

theorem remove_store_ne (c : PagedKVCache) (sid count x : Nat) (h : x ≠ sid) :
    (c.remove_tokens sid count).store x = c.store x := by
  simp [PagedKVCache.remove_tokens, h]

theorem remove_nextId (c : PagedKVCache) (sid count : Nat) :
    (c.remove_tokens sid count).nextId = c.nextId := rfl

theorem remove_allocCount (c : PagedKVCache) (sid count : Nat) :
    (c.remove_tokens sid count).allocCount = c.allocCount := rfl

theorem remove_freedCount (c : PagedKVCache) (sid count : Nat) :
    (c.remove_tokens sid count).freedCount = c.freedCount := rfl

/-! ### The branching phase -/

theorem addChildrenAll_nextId (parents : List Nat) :
    ∀ (c : PagedKVCache) (k : Nat),
      (addChildrenAll c parents k).1.nextId = c.nextId + parents.length * k := by
  induction parents with
  | nil => intro c k; simp [addChildrenAll]
  | cons pid rest ih =>
    intro c k
    have h := ih (c.add_child_sequences pid k).1 k
    rw [addChildrenAll] at *
    simp only [h, add_child_nextId, List.length_cons]
    rw [Nat.succ_mul]
    omega

theorem addChildrenAll_allocCount (parents : List Nat) :
    ∀ (c : PagedKVCache) (k : Nat),
      (addChildrenAll c parents k).1.allocCount =
        c.allocCount + parents.length * k := by
  induction parents with
  | nil => intro c k; simp [addChildrenAll]
  | cons pid rest ih =>
    intro c k
    have h := ih (c.add_child_sequences pid k).1 k
    rw [addChildrenAll] at *
    simp only [h, add_child_allocCount, List.length_cons]
    rw [Nat.succ_mul]
    omega

theorem addChildrenAll_freedCount (parents : List Nat) :
    ∀ (c : PagedKVCache) (k : Nat),
      (addChildrenAll c parents k).1.freedCount = c.freedCount := by
  induction parents with
  | nil => intro c k; simp [addChildrenAll]
  | cons pid rest ih =>
    intro c k
    have h := ih (c.add_child_sequences pid k).1 k
    rw [addChildrenAll] at *
    simp only [h, add_child_freedCount]

theorem addChildrenAll_ids_length (parents : List Nat) :
    ∀ (c : PagedKVCache) (k : Nat),
      (addChildrenAll c parents k).2.length = parents.length := by
  induction parents with
  | nil => intro c k; simp [addChildrenAll]
  | cons pid rest ih =>
    intro c k
    rw [addChildrenAll]
    simp [ih]

theorem addChildrenAll_ids_getD (parents : List Nat) :
    ∀ (c : PagedKVCache) (k i : Nat), i < parents.length →
      (addChildrenAll c parents k).2.getD i [] =
        (List.range k).map (fun j => c.nextId + (i * k + j)) := by
  induction parents with
  | nil => intro c k i hi; simp at hi
  | cons pid rest ih =>
    intro c k i hi
    rw [addChildrenAll]
    cases i with
    | zero =>
      simp only [List.getD_cons_zero, add_child_ids]
      apply List.map_congr_left
      intro j _
      omega
    | succ i' =>
      simp only [List.getD_cons_succ]
      rw [ih (c.add_child_sequences pid k).1 k i'
        (Nat.lt_of_succ_lt_succ hi)]
      apply List.map_congr_left
      intro j _
      rw [add_child_nextId, Nat.succ_mul]
      omega

theorem addChildrenAll_store_lt (parents : List Nat) :
    ∀ (c : PagedKVCache) (k sid : Nat), sid < c.nextId →
      (addChildrenAll c parents k).1.store sid = c.store sid := by
  induction parents with
  | nil => intro c k sid _; simp [addChildrenAll]
  | cons pid rest ih =>
    intro c k sid hs
    rw [addChildrenAll]
    have h1 := ih (c.add_child_sequences pid k).1 k sid
      (by rw [add_child_nextId]; omega)
    simp only [h1]
    exact add_child_store_lt c pid k sid hs

theorem addChildrenAll_child_store (parents : List Nat) :
    ∀ (c : PagedKVCache) (k i j : Nat),
      (∀ pid ∈ parents, pid < c.nextId) → i < parents.length → j < k →
      (addChildrenAll c parents k).1.store (c.nextId + (i * k + j)) =
        some (c.lookup (parents.getD i 0)) := by
  induction parents with
  | nil => intro c k i j _ hi _; simp at hi
  | cons pid rest ih =>
    intro c k i j hp hi hj
    rw [addChildrenAll]
    cases i with
    | zero =>
      have hz : (0 : Nat) * k + j = j := by omega
      rw [hz]
      have h1 := addChildrenAll_store_lt rest (c.add_child_sequences pid k).1
        k (c.nextId + j) (by rw [add_child_nextId]; omega)
      simp only [h1, List.getD_cons_zero]
      exact add_child_store_new c pid k j hj
    | succ i' =>
      have harith : c.nextId + ((i' + 1) * k + j) =
          (c.add_child_sequences pid k).1.nextId + (i' * k + j) := by
        rw [add_child_nextId, Nat.succ_mul]; omega
      rw [harith]
      have hp' : ∀ q ∈ rest, q < (c.add_child_sequences pid k).1.nextId := by
        intro q hq
        rw [add_child_nextId]
        exact Nat.lt_of_lt_of_le (hp q (List.mem_cons_of_mem pid hq))
          (Nat.le_add_right _ _)
      rw [ih (c.add_child_sequences pid k).1 k i' j hp'
        (Nat.lt_of_succ_lt_succ hi) hj]
      simp only [List.getD_cons_succ]
      cases hr : rest.getD i' 0 == rest.getD i' 0
      · simp at hr
      · have hq : i' < rest.length := Nat.lt_of_succ_lt_succ hi
        have hmem : rest.getD i' 0 ∈ rest := getD_mem rest i' hq 0
        have hlt : rest.getD i' 0 < c.nextId :=
          hp _ (List.mem_cons_of_mem pid hmem)
        unfold PagedKVCache.lookup
        rw [add_child_store_lt c pid k _ hlt]

/-! ### The reconciliation phase -/

/-- The winning child id named by a reconciliation triple
`(child ids, best index, n_correct)`. -/
def winnerOfTriple (tr : List Nat × Nat × Nat) : Nat := tr.1.getD tr.2.1 0

/-- The shape the branching phase gives the reconciliation input: triple `t`
carries the child-id block `[start + t*k, start + (t+1)*k)`, in order. -/
def Chunked (k : Nat) : Nat → List (List Nat × Nat × Nat) → Prop
  | _, [] => True
  | start, tr :: rest =>
    tr.1 = (List.range k).map (fun j => start + j) ∧ Chunked k (start + k) rest

theorem mem_range_map_add {start k x : Nat}
    (h : x ∈ (List.range k).map (fun j => start + j)) :
    start ≤ x ∧ x < start + k := by
  rcases List.mem_map.mp h with ⟨j, hj, rfl⟩
  have := List.mem_range.mp hj
  omega

theorem mem_drop_range {j k mdrop : Nat} (h : j ∈ (List.range k).drop mdrop) :
    mdrop ≤ j ∧ j < k := by
  rcases List.mem_iff_getElem.mp h with ⟨i, hi, hg⟩
  rw [List.getElem_drop] at hg
  have hlen : mdrop + i < k := by
    have := hi
    simp [List.length_drop] at this
    omega
  rw [List.getElem_range] at hg
  omega

theorem chunked_ids_ge {k : Nat} (triples : List (List Nat × Nat × Nat)) :
    ∀ start, Chunked k start triples →
      ∀ tr ∈ triples, ∀ x ∈ tr.1, start ≤ x := by
  induction triples with
  | nil => intro start _ tr htr; cases htr
  | cons t0 rest ih =>
    intro start hch tr htr x hx
    rcases hch with ⟨hshape, hrest⟩
    rcases List.mem_cons.mp htr with h1 | h2
    · subst h1
      exact (mem_range_map_add (hshape ▸ hx)).1
    · have := ih (start + k) hrest tr h2 x hx
      omega

theorem winner_not_mem_losers {start k best : Nat} (hb : best < k) :
    start + best ∉
      (((List.range k).map (fun j => start + j)).take best ++
        ((List.range k).map (fun j => start + j)).drop (best + 1)) := by
  intro hmem
  rcases List.mem_append.mp hmem with h1 | h2
  · rw [← List.map_take] at h1
    rcases List.mem_map.mp h1 with ⟨j, hj, hje⟩
    have hjr : j ∈ List.range (min best k) := by
      rwa [List.take_range] at hj
    have := List.mem_range.mp hjr
    omega
  · rw [← List.map_drop] at h2
    rcases List.mem_map.mp h2 with ⟨j, hj, hje⟩
    have := mem_drop_range hj
    omega

theorem reconcile_nextId (n_adds : Nat) (triples : List (List Nat × Nat × Nat)) :
    ∀ c : PagedKVCache,
      (reconcilePhase n_adds c triples).1.nextId = c.nextId := by
  induction triples with
  | nil => intro c; simp [reconcilePhase]
  | cons t0 rest ih =>
    intro c
    rw [reconcilePhase]
    simp only [ih, remove_nextId, free_nextId]

theorem reconcile_allocCount (n_adds : Nat)
    (triples : List (List Nat × Nat × Nat)) :
    ∀ c : PagedKVCache,
      (reconcilePhase n_adds c triples).1.allocCount = c.allocCount := by
  induction triples with
  | nil => intro c; simp [reconcilePhase]
  | cons t0 rest ih =>
    intro c
    rw [reconcilePhase]
    simp only [ih, remove_allocCount, free_allocCount]

theorem reconcile_parents (n_adds : Nat)
    (triples : List (List Nat × Nat × Nat)) :
    ∀ c : PagedKVCache,
      (reconcilePhase n_adds c triples).2 = triples.map winnerOfTriple := by
  induction triples with
  | nil => intro c; simp [reconcilePhase]
  | cons t0 rest ih =>
    intro c
    rw [reconcilePhase]
    simp only [ih, List.map_cons]
    rfl

theorem reconcile_freedCount {k : Nat} (n_adds : Nat)
    (triples : List (List Nat × Nat × Nat))
    (hwf : ∀ tr ∈ triples, tr.1.length = k ∧ tr.2.1 < k) :
    ∀ c : PagedKVCache,
      (reconcilePhase n_adds c triples).1.freedCount =
        c.freedCount + triples.length * (k - 1) := by
  induction triples with
  | nil => intro c; simp [reconcilePhase]
  | cons t0 rest ih =>
    intro c
    rw [reconcilePhase]
    have h0 := hwf t0 (List.mem_cons_self t0 rest)
    have hlosers :
        (t0.1.take t0.2.1 ++ t0.1.drop (t0.2.1 + 1)).length = k - 1 := by
      rw [List.length_append, List.length_take, List.length_drop, h0.1]
      omega
    rw [ih (fun tr htr => hwf tr (List.mem_cons_of_mem t0 htr))]
    simp only [remove_freedCount, free_freedCount]
    rw [hlosers, List.length_cons, Nat.succ_mul]
    omega

theorem reconcile_store_lt {k : Nat} (n_adds : Nat)
    (triples : List (List Nat × Nat × Nat)) :
    ∀ (start : Nat) (c : PagedKVCache), Chunked k start triples →
      (∀ tr ∈ triples, tr.2.1 < k) →
      ∀ sid < start, (reconcilePhase n_adds c triples).1.store sid =
        c.store sid := by
  induction triples with
  | nil => intro start c _ _ sid _; simp [reconcilePhase]
  | cons t0 rest ih =>
    intro start c hch hb sid hsid
    rcases hch with ⟨hshape, hrest⟩
    rw [reconcilePhase]
    have hrec := ih (start + k)
      ((c.free_sequences (t0.1.take t0.2.1 ++ t0.1.drop (t0.2.1 + 1))).remove_tokens
        (t0.1.getD t0.2.1 0) (n_adds - t0.2.2 - 1)) hrest
      (fun tr htr => hb tr (List.mem_cons_of_mem t0 htr)) sid (by omega)
    simp only [hrec]
    have hw : t0.1.getD t0.2.1 0 = start + t0.2.1 := by
      rw [hshape]
      exact getD_map_range k _ t0.2.1 (hb t0 (List.mem_cons_self t0 rest)) 0
    have hne : sid ≠ t0.1.getD t0.2.1 0 := by rw [hw]; omega
    rw [remove_store_ne _ _ _ sid hne]
    apply free_store_not_mem
    intro hmem
    have hle : start ≤ sid := by
      rcases List.mem_append.mp hmem with h1 | h2
      · exact (mem_range_map_add (hshape ▸ List.mem_of_mem_take h1)).1
      · exact (mem_range_map_add (hshape ▸ List.mem_of_mem_drop h2)).1
    omega

theorem chunked_len {k : Nat} (triples : List (List Nat × Nat × Nat)) :
    ∀ start, Chunked k start triples → ∀ tr ∈ triples, tr.1.length = k := by
  induction triples with
  | nil => intro start _ tr htr; cases htr
  | cons t0 rest ih =>
    intro start hch tr htr
    rcases hch with ⟨hshape, hrest⟩
    rcases List.mem_cons.mp htr with h1 | h2
    · subst h1; simp [hshape]
    · exact ih (start + k) hrest tr h2

theorem reconcile_winner_store {k : Nat} (n_adds : Nat)
    (triples : List (List Nat × Nat × Nat)) :
    ∀ (start : Nat) (c : PagedKVCache), Chunked k start triples →
      (∀ tr ∈ triples, tr.2.1 < k) →
      ∀ t < triples.length,
        (reconcilePhase n_adds c triples).1.store
            (winnerOfTriple (triples.getD t ([], 0, 0))) =
          (c.store (winnerOfTriple (triples.getD t ([], 0, 0)))).map
            (fun ts => ts.take
              (ts.length - (n_adds - (triples.getD t ([], 0, 0)).2.2 - 1))) := by
  induction triples with
  | nil => intro start c _ _ t ht; simp at ht
  | cons t0 rest ih =>
    intro start c hch hb t ht
    have hch' := hch
    rcases hch' with ⟨hshape, hrest⟩
    have hb0 : t0.2.1 < k := hb t0 (List.mem_cons_self t0 rest)
    have hw0 : winnerOfTriple t0 = start + t0.2.1 := by
      unfold winnerOfTriple
      rw [hshape]
      exact getD_map_range k _ t0.2.1 hb0 0
    rw [reconcilePhase]
    cases t with
    | zero =>
      simp only [List.getD_cons_zero]
      have hpres := reconcile_store_lt (k := k) n_adds rest (start + k)
        (((c.free_sequences (t0.1.take t0.2.1 ++ t0.1.drop (t0.2.1 + 1))).remove_tokens
          (t0.1.getD t0.2.1 0) (n_adds - t0.2.2 - 1)))
        hrest (fun tr htr => hb tr (List.mem_cons_of_mem t0 htr))
        (winnerOfTriple t0) (by rw [hw0]; omega)
      simp only [hpres]
      have hwid : winnerOfTriple t0 = t0.1.getD t0.2.1 0 := rfl
      rw [hwid, remove_store_eq]
      congr 1
      apply free_store_not_mem
      rw [← hwid, hw0, hshape]
      exact winner_not_mem_losers hb0
    | succ t' =>
      simp only [List.getD_cons_succ]
      have ht' : t' < rest.length := Nat.lt_of_succ_lt_succ ht
      have hrec := ih (start + k)
        (((c.free_sequences (t0.1.take t0.2.1 ++ t0.1.drop (t0.2.1 + 1))).remove_tokens
          (t0.1.getD t0.2.1 0) (n_adds - t0.2.2 - 1)))
        hrest (fun tr htr => hb tr (List.mem_cons_of_mem t0 htr)) t' ht'
      rw [hrec]
      have htr' : rest.getD t' ([], 0, 0) ∈ rest := getD_mem rest t' ht' _
      have hlen' : (rest.getD t' ([], 0, 0)).1.length = k :=
        chunked_len rest (start + k) hrest _ htr'
      have hbw' : (rest.getD t' ([], 0, 0)).2.1 < k :=
        hb _ (List.mem_cons_of_mem t0 htr')
      have hwmem : winnerOfTriple (rest.getD t' ([], 0, 0)) ∈
          (rest.getD t' ([], 0, 0)).1 :=
        getD_mem _ _ (by omega) 0
      have hge : start + k ≤ winnerOfTriple (rest.getD t' ([], 0, 0)) :=
        chunked_ids_ge rest (start + k) hrest _ htr' _ hwmem
      congr 1
      have hch0 : t0.1.getD t0.2.1 0 = start + t0.2.1 := hw0
      rw [remove_store_ne _ _ _ _ (by omega)]
      apply free_store_not_mem
      intro hmem
      have : winnerOfTriple (rest.getD t' ([], 0, 0)) < start + k := by
        rcases List.mem_append.mp hmem with h1 | h2
        · exact (mem_range_map_add (hshape ▸ List.mem_of_mem_take h1)).2
        · exact (mem_range_map_add (hshape ▸ List.mem_of_mem_drop h2)).2
      omega

/-! ### Assembling one round -/

theorem getD_zip {α β : Type} (l1 : List α) (l2 : List β) (i : Nat)
    (h1 : i < l1.length) (h2 : i < l2.length) (d1 : α) (d2 : β) :
    (l1.zip l2).getD i (d1, d2) = (l1.getD i d1, l2.getD i d2) := by
  rw [getD_eq_getElem _ _ (by rw [List.length_zip]; omega),
    List.getElem_zip, getD_eq_getElem _ _ h1, getD_eq_getElem _ _ h2]

theorem getD_le_of_all {l : List Nat} {m d i : Nat}
    (h : ∀ x ∈ l, x ≤ m) (hd : d ≤ m) : l.getD i d ≤ m := by
  by_cases hi : i < l.length
  · exact h _ (getD_mem l i hi d)
  · rw [List.getD_eq_default]
    · exact hd
    · omega

theorem addChildrenAll_ids_list (parents : List Nat) :
    ∀ (c : PagedKVCache) (k : Nat),
      (addChildrenAll c parents k).2 =
        (List.range parents.length).map
          (fun i => (List.range k).map (fun j => c.nextId + (i * k + j))) := by
  induction parents with
  | nil => intro c k; simp [addChildrenAll]
  | cons pid rest ih =>
    intro c k
    rw [addChildrenAll]
    simp only [List.length_cons, List.range_succ_eq_map, List.map_cons,
      List.map_map]
    congr 1
    · rw [add_child_ids]
      apply List.map_congr_left
      intro j _
      omega
    · rw [ih (c.add_child_sequences pid k).1 k]
      apply List.map_congr_left
      intro i _
      rw [Function.comp_apply]
      apply List.map_congr_left
      intro j _
      rw [add_child_nextId, Nat.succ_mul]
      omega

theorem flatten_chunk_ids (b : Nat) :
    ∀ (start k : Nat),
      ((List.range b).map
        (fun i => (List.range k).map (fun j => start + (i * k + j)))).flatten =
      (List.range (b * k)).map (fun j => start + j) := by
  induction b with
  | zero => intro start k; simp
  | succ b' ih =>
    intro start k
    have hsplit : List.range ((b' + 1) * k) =
        List.range k ++ (List.range (b' * k)).map (fun j => k + j) := by
      rw [Nat.succ_mul, Nat.add_comm (b' * k) k, List.range_add]
    rw [List.range_succ_eq_map, List.map_cons, List.flatten_cons,
      List.map_map, hsplit, List.map_append]
    congr 1
    · apply List.map_congr_left
      intro j _
      omega
    · have hmap : (List.range b').map
          ((fun i => (List.range k).map (fun j => start + (i * k + j))) ∘
            Nat.succ) =
          (List.range b').map
            (fun i => (List.range k).map
              (fun j => (start + k) + (i * k + j))) := by
        apply List.map_congr_left
        intro i _
        rw [Function.comp_apply]
        apply List.map_congr_left
        intro j _
        rw [Nat.succ_mul]
        omega
      rw [hmap, ih (start + k) k, List.map_map]
      apply List.map_congr_left
      intro j _
      rw [Function.comp_apply]
      omega

theorem chunked_of_closed (b : Nat) :
    ∀ (start k : Nat) (P : List (Nat × Nat)), b = P.length →
      Chunked k start
        (((List.range b).map
          (fun i => (List.range k).map (fun j => start + (i * k + j)))).zip P) := by
  induction b with
  | zero => intro start k P _; simp [Chunked]
  | succ b' ih =>
    intro start k P hb
    cases P with
    | nil => simp at hb
    | cons p0 P' =>
      simp only [List.range_succ_eq_map, List.map_cons, List.map_map,
        List.zip_cons_cons]
      constructor
      · apply List.map_congr_left
        intro j _
        omega
      · have hmap : (List.range b').map
            ((fun i => (List.range k).map (fun j => start + (i * k + j))) ∘
              Nat.succ) =
            (List.range b').map
              (fun i => (List.range k).map
                (fun j => (start + k) + (i * k + j))) := by
          apply List.map_congr_left
          intro i _
          rw [Function.comp_apply]
          apply List.map_congr_left
          intro j _
          rw [Nat.succ_mul]
          omega
        rw [hmap]
        exact ih (start + k) k P' (by simpa using hb)

theorem addChildrenAll_store_ge (parents : List Nat) :
    ∀ (c : PagedKVCache) (k sid : Nat),
      c.nextId + parents.length * k ≤ sid →
      (addChildrenAll c parents k).1.store sid = c.store sid := by
  induction parents with
  | nil => intro c k sid _; simp [addChildrenAll]
  | cons pid rest ih =>
    intro c k sid hs
    rw [List.length_cons, Nat.succ_mul] at hs
    rw [addChildrenAll]
    have h1 := ih (c.add_child_sequences pid k).1 k sid
      (by rw [add_child_nextId]; omega)
    simp only [h1]
    have : ¬(c.nextId ≤ sid ∧ sid < c.nextId + k) := by omega
    simp [PagedKVCache.add_child_sequences, this]

theorem reconcile_store_ge {k : Nat} (n_adds : Nat)
    (triples : List (List Nat × Nat × Nat)) :
    ∀ (start : Nat) (c : PagedKVCache), Chunked k start triples →
      (∀ tr ∈ triples, tr.2.1 < k) →
      ∀ sid, start + triples.length * k ≤ sid →
        (reconcilePhase n_adds c triples).1.store sid = c.store sid := by
  induction triples with
  | nil => intro start c _ _ sid _; simp [reconcilePhase]
  | cons t0 rest ih =>
    intro start c hch hb sid hsid
    rw [List.length_cons, Nat.succ_mul] at hsid
    rcases hch with ⟨hshape, hrest⟩
    rw [reconcilePhase]
    have hrec := ih (start + k)
      ((c.free_sequences (t0.1.take t0.2.1 ++ t0.1.drop (t0.2.1 + 1))).remove_tokens
        (t0.1.getD t0.2.1 0) (n_adds - t0.2.2 - 1)) hrest
      (fun tr htr => hb tr (List.mem_cons_of_mem t0 htr)) sid (by omega)
    simp only [hrec]
    have hw : t0.1.getD t0.2.1 0 = start + t0.2.1 := by
      rw [hshape]
      exact getD_map_range k _ t0.2.1 (hb t0 (List.mem_cons_self t0 rest)) 0
    have hne : sid ≠ t0.1.getD t0.2.1 0 := by
      rw [hw]
      have := hb t0 (List.mem_cons_self t0 rest)
      omega
    rw [remove_store_ne _ _ _ sid hne]
    apply free_store_not_mem
    intro hmem
    have hlt : sid < start + k := by
      rcases List.mem_append.mp hmem with h1 | h2
      · exact (mem_range_map_add (hshape ▸ List.mem_of_mem_take h1)).2
      · exact (mem_range_map_add (hshape ▸ List.mem_of_mem_drop h2)).2
    omega

/-! ### Shape facts for one round -/

/-- The speculator contract (spec §6): `generate_suffixes` returns `top_k`
candidate suffixes of `n_predict = n_adds - 1` tokens each. -/
def SpkWF (p : SDParams) : Prop :=
  ∀ e t, (p.spk e t).length = p.top_k ∧
    ∀ sfx ∈ p.spk e t, sfx.length = p.n_adds - 1

theorem candsOf_length (p : SDParams) (s : SpecState) (i : Nat)
    (hspk : SpkWF p) : (candsOf p s i).length = p.top_k := by
  simp [candsOf, (hspk _ _).1]

theorem candsOf_mem_length (p : SDParams) (s : SpecState) (i : Nat)
    (hspk : SpkWF p) (ha : 1 ≤ p.n_adds) :
    ∀ cand ∈ candsOf p s i, cand.length = p.n_adds := by
  intro cand hc
  rcases List.mem_map.mp hc with ⟨sfx, hs, rfl⟩
  have := (hspk (s.embedCtxs.getD i []) (s.lastToks.getD i 0)).2 sfx hs
  simp only [List.length_cons, this]
  omega

theorem rowInput_length (p : SDParams) (s : SpecState) (r : Nat)
    (hspk : SpkWF p) (ha : 1 ≤ p.n_adds)
    (hr : r < p.top_k * bsizeOf s) : (rowInput p s r).length = p.n_adds := by
  have hb : 0 < bsizeOf s := by
    rcases Nat.eq_zero_or_pos (bsizeOf s) with h | h
    · rw [h, Nat.mul_zero] at hr; omega
    · exact h
  have hdiv : r / bsizeOf s < p.top_k := (Nat.div_lt_iff_lt_mul hb).mpr hr
  rw [rowInput, getD_eq_getElem _ _
    (by rw [candsOf_length p s _ hspk]; exact hdiv)]
  exact candsOf_mem_length p s _ hspk ha _ (List.getElem_mem _)

theorem ncListOf_length (p : SDParams) (s : SpecState) (i : Nat) :
    (ncListOf p s i).length = p.top_k := by
  simp [ncListOf]

theorem bestOf_lt (p : SDParams) (s : SpecState) (i : Nat)
    (hk : 1 ≤ p.top_k) : bestOf p s i < p.top_k := by
  have hlen := ncListOf_length p s i
  have hne : ncListOf p s i ≠ [] := by
    intro he; rw [he] at hlen; simp at hlen; omega
  have := argmaxFirst_lt hne
  rw [hlen] at this
  exact this

theorem nCorrectRow_le (p : SDParams) (s : SpecState) (r : Nat) :
    nCorrectRow p s r ≤ p.n_adds - 1 := min_le_right _ _

theorem ncOf_le (p : SDParams) (s : SpecState) (i : Nat) :
    ncOf p s i ≤ p.n_adds - 1 := by
  apply getD_le_of_all
  · intro x hx
    rcases List.mem_map.mp hx with ⟨c, _, rfl⟩
    exact nCorrectRow_le p s _
  · exact Nat.zero_le _

theorem selRow_lt (p : SDParams) (s : SpecState) (i : Nat)
    (hk : 1 ≤ p.top_k) (hi : i < bsizeOf s) :
    selRow p s i < p.top_k * bsizeOf s := by
  have h1 : bestOf p s i + 1 ≤ p.top_k := bestOf_lt p s i hk
  calc selRow p s i = bestOf p s i * bsizeOf s + i := rfl
    _ < bestOf p s i * bsizeOf s + bsizeOf s := by omega
    _ = (bestOf p s i + 1) * bsizeOf s := by rw [Nat.succ_mul]
    _ ≤ p.top_k * bsizeOf s := Nat.mul_le_mul_right _ h1

theorem imajor_lt (p : SDParams) (s : SpecState) (i : Nat)
    (hk : 1 ≤ p.top_k) (hi : i < bsizeOf s) :
    i * p.top_k + bestOf p s i < bsizeOf s * p.top_k := by
  have h1 : bestOf p s i < p.top_k := bestOf_lt p s i hk
  have h2 : i + 1 ≤ bsizeOf s := hi
  calc i * p.top_k + bestOf p s i < i * p.top_k + p.top_k := by omega
    _ = (i + 1) * p.top_k := by rw [Nat.succ_mul]
    _ ≤ bsizeOf s * p.top_k := Nat.mul_le_mul_right _ h2

theorem rowNextVals_length (p : SDParams) (s : SpecState) (r : Nat)
    (hspk : SpkWF p) (ha : 1 ≤ p.n_adds)
    (hr : r < p.top_k * bsizeOf s) :
    (rowNextVals p s r).length = p.n_adds := by
  rw [rowNextVals, predsRow]
  simp [rowInput_length p s r hspk ha hr]

theorem acceptedOf_length (p : SDParams) (s : SpecState) (i : Nat)
    (hspk : SpkWF p) (ha : 1 ≤ p.n_adds) (hk : 1 ≤ p.top_k)
    (hi : i < bsizeOf s) : (acceptedOf p s i).length = ncOf p s i + 1 := by
  rw [acceptedOf, List.length_take,
    rowNextVals_length p s _ hspk ha (selRow_lt p s i hk hi)]
  have := ncOf_le p s i
  omega

/-! ### The cache across one round -/

def stepChildIds (p : SDParams) (s : SpecState) : List (List Nat) :=
  (addChildrenAll s.cache s.parentIds p.top_k).2

def stepTriples (p : SDParams) (s : SpecState) :
    List (List Nat × Nat × Nat) :=
  (stepChildIds p s).zip
    (((List.range (bsizeOf s)).map (bestOf p s)).zip
      ((List.range (bsizeOf s)).map (ncOf p s)))

def stepCacheMid (p : SDParams) (s : SpecState) : PagedKVCache :=
  (addChildrenAll s.cache s.parentIds p.top_k).1.allocate_generated_token
    (stepChildIds p s).flatten
    ((List.range (p.top_k * bsizeOf s)).map (rowInput p s))

theorem specStep_cache (p : SDParams) (s : SpecState) :
    (specStep p s).cache =
      (reconcilePhase p.n_adds (stepCacheMid p s) (stepTriples p s)).1 := rfl

theorem specStep_parentIds (p : SDParams) (s : SpecState) :
    (specStep p s).parentIds =
      (reconcilePhase p.n_adds (stepCacheMid p s) (stepTriples p s)).2 := rfl

theorem stepChildIds_closed (p : SDParams) (s : SpecState) :
    stepChildIds p s =
      (List.range (bsizeOf s)).map
        (fun i => (List.range p.top_k).map
          (fun j => s.cache.nextId + (i * p.top_k + j))) :=
  addChildrenAll_ids_list s.parentIds s.cache p.top_k

theorem stepChildIds_length (p : SDParams) (s : SpecState) :
    (stepChildIds p s).length = bsizeOf s :=
  addChildrenAll_ids_length s.parentIds s.cache p.top_k

theorem stepTriples_length (p : SDParams) (s : SpecState) :
    (stepTriples p s).length = bsizeOf s := by
  rw [stepTriples, List.length_zip, List.length_zip, stepChildIds_length]
  simp

theorem stepTriples_getD (p : SDParams) (s : SpecState) (i : Nat)
    (hi : i < bsizeOf s) :
    (stepTriples p s).getD i ([], 0, 0) =
      ((stepChildIds p s).getD i [], bestOf p s i, ncOf p s i) := by
  rw [stepTriples, getD_zip _ _ i (by rw [stepChildIds_length]; exact hi)
    (by rw [List.length_zip]; simp; omega),
    getD_zip _ _ i (by simp; exact hi) (by simp; exact hi),
    getD_map_range _ _ i hi, getD_map_range _ _ i hi]

theorem stepTriples_chunked (p : SDParams) (s : SpecState) :
    Chunked p.top_k s.cache.nextId (stepTriples p s) := by
  rw [stepTriples, stepChildIds_closed]
  exact chunked_of_closed (bsizeOf s) s.cache.nextId p.top_k _ (by simp)

theorem stepTriples_bests_lt (p : SDParams) (s : SpecState)
    (hk : 1 ≤ p.top_k) :
    ∀ tr ∈ stepTriples p s, tr.2.1 < p.top_k := by
  intro tr htr
  have h2 := (List.of_mem_zip htr).2
  have h1 := (List.of_mem_zip h2).1
  rcases List.mem_map.mp h1 with ⟨i, _, hie⟩
  exact hie ▸ bestOf_lt p s i hk

theorem stepWinner_eq (p : SDParams) (s : SpecState) (i : Nat)
    (hk : 1 ≤ p.top_k) (hi : i < bsizeOf s) :
    winnerOfTriple ((stepTriples p s).getD i ([], 0, 0)) =
      s.cache.nextId + (i * p.top_k + bestOf p s i) := by
  rw [stepTriples_getD p s i hi, winnerOfTriple]
  have hgd : (stepChildIds p s).getD i [] =
      (List.range p.top_k).map
        (fun j => s.cache.nextId + (i * p.top_k + j)) := by
    rw [stepChildIds_closed]
    rw [getD_map_range _ _ i hi]
  rw [hgd]
  exact getD_map_range _ _ _ (bestOf_lt p s i hk) 0

theorem stepCacheMid_winner_store (p : SDParams) (s : SpecState) (i : Nat)
    (hspk : SpkWF p) (ha : 1 ≤ p.n_adds) (hk : 1 ≤ p.top_k)
    (hi : i < bsizeOf s)
    (hpar : ∀ pid ∈ s.parentIds, pid < s.cache.nextId) :
    (stepCacheMid p s).store
        (s.cache.nextId + (i * p.top_k + bestOf p s i)) =
      some (s.cache.lookup (s.parentIds.getD i 0) ++
        rowInput p s (i * p.top_k + bestOf p s i)) := by
  have hj : i * p.top_k + bestOf p s i < bsizeOf s * p.top_k :=
    imajor_lt p s i hk hi
  have hflat : (stepChildIds p s).flatten =
      (List.range (bsizeOf s * p.top_k)).map (fun j => s.cache.nextId + j) := by
    rw [stepChildIds_closed]
    exact flatten_chunk_ids (bsizeOf s) s.cache.nextId p.top_k
  have hlenflat : ((stepChildIds p s).flatten).length = bsizeOf s * p.top_k := by
    rw [hflat, List.length_map, List.length_range]
  have hgd : ((stepChildIds p s).flatten).getD (i * p.top_k + bestOf p s i) 0 =
      s.cache.nextId + (i * p.top_k + bestOf p s i) := by
    rw [hflat]
    exact getD_map_range _ _ _ hj 0
  rw [stepCacheMid]
  have hat := agt_store_at (addChildrenAll s.cache s.parentIds p.top_k).1
    ((stepChildIds p s).flatten)
    ((List.range (p.top_k * bsizeOf s)).map (rowInput p s))
    (i * p.top_k + bestOf p s i)
    (by rw [hlenflat]; exact hj)
    (by
      rw [List.length_map, List.length_range]
      have h2 : p.top_k * bsizeOf s = bsizeOf s * p.top_k := Nat.mul_comm _ _
      omega)
    (by
      intro i2 hi2
      rw [hgd, hflat, getD_map_range _ _ i2 (by omega) 0]
      omega)
  rw [hgd] at hat
  rw [hat]
  have hrows : ((List.range (p.top_k * bsizeOf s)).map
      (rowInput p s)).getD (i * p.top_k + bestOf p s i) [] =
      rowInput p s (i * p.top_k + bestOf p s i) :=
    getD_map_range _ _ _
      (by
        have h2 : p.top_k * bsizeOf s = bsizeOf s * p.top_k := Nat.mul_comm _ _
        omega) []
  rw [hrows]
  have hchild := addChildrenAll_child_store s.parentIds s.cache p.top_k i
    (bestOf p s i) hpar hi (bestOf_lt p s i hk)
  rw [hchild]
  rfl

theorem specStep_winner_store (p : SDParams) (s : SpecState) (i : Nat)
    (hspk : SpkWF p) (ha : 1 ≤ p.n_adds) (hk : 1 ≤ p.top_k)
    (hi : i < bsizeOf s)
    (hpar : ∀ pid ∈ s.parentIds, pid < s.cache.nextId) :
    (specStep p s).cache.store
        (s.cache.nextId + (i * p.top_k + bestOf p s i)) =
      some (s.cache.lookup (s.parentIds.getD i 0) ++
        (rowInput p s (i * p.top_k + bestOf p s i)).take (ncOf p s i + 1)) := by
  have hws := reconcile_winner_store (k := p.top_k) p.n_adds (stepTriples p s)
    s.cache.nextId (stepCacheMid p s) (stepTriples_chunked p s)
    (stepTriples_bests_lt p s hk) i (by rw [stepTriples_length]; exact hi)
  rw [specStep_cache]
  rw [stepWinner_eq p s i hk hi] at hws
  rw [hws, stepTriples_getD p s i hi]
  rw [stepCacheMid_winner_store p s i hspk ha hk hi hpar]
  have hrl : (rowInput p s (i * p.top_k + bestOf p s i)).length = p.n_adds :=
    rowInput_length p s _ hspk ha (by
      have h1 := imajor_lt p s i hk hi
      have h2 : p.top_k * bsizeOf s = bsizeOf s * p.top_k := Nat.mul_comm _ _
      omega)
  have hnc := ncOf_le p s i
  have harith :
      (s.cache.lookup (s.parentIds.getD i 0)).length + p.n_adds -
        (p.n_adds - ncOf p s i - 1) =
      (s.cache.lookup (s.parentIds.getD i 0)).length + (ncOf p s i + 1) := by
    omega
  have htake :
      (s.cache.lookup (s.parentIds.getD i 0) ++
          rowInput p s (i * p.top_k + bestOf p s i)).take
        ((s.cache.lookup (s.parentIds.getD i 0) ++
          rowInput p s (i * p.top_k + bestOf p s i)).length -
          (p.n_adds - ncOf p s i - 1)) =
      s.cache.lookup (s.parentIds.getD i 0) ++
        (rowInput p s (i * p.top_k + bestOf p s i)).take (ncOf p s i + 1) := by
    rw [List.length_append, hrl, harith]
    exact List.take_append (ncOf p s i + 1)
  simp only [Option.map_some', htake]

theorem getD_map {α β : Type} (l : List α) (f : α → β) (i : Nat)
    (hi : i < l.length) (d : α) (d2 : β) :
    (l.map f).getD i d2 = f (l.getD i d) := by
  rw [getD_eq_getElem _ _ (by simpa using hi), List.getElem_map,
    getD_eq_getElem _ _ hi]

theorem getD_replicate (n : Nat) (x : Nat) (i : Nat) :
    (List.replicate n x).getD i x = x := by
  by_cases hi : i < n
  · rw [getD_eq_getElem _ _ (by simpa using hi), List.getElem_replicate]
  · rw [List.getD_eq_default]
    simpa using hi

theorem chunked_ids_lt {k : Nat} (triples : List (List Nat × Nat × Nat)) :
    ∀ start, Chunked k start triples →
      ∀ tr ∈ triples, ∀ x ∈ tr.1, x < start + triples.length * k := by
  induction triples with
  | nil => intro start _ tr htr; cases htr
  | cons t0 rest ih =>
    intro start hch tr htr x hx
    rcases hch with ⟨hshape, hrest⟩
    rw [List.length_cons, Nat.succ_mul]
    rcases List.mem_cons.mp htr with h1 | h2
    · subst h1
      have := (mem_range_map_add (hshape ▸ hx)).2
      omega
    · have := ih (start + k) hrest tr h2 x hx
      omega

theorem specStep_parentIds_getD (p : SDParams) (s : SpecState) (i : Nat)
    (hk : 1 ≤ p.top_k) (hi : i < bsizeOf s) :
    (specStep p s).parentIds.getD i 0 =
      s.cache.nextId + (i * p.top_k + bestOf p s i) := by
  rw [specStep_parentIds, reconcile_parents,
    getD_map _ _ i (by rw [stepTriples_length]; exact hi) ([], 0, 0) 0,
    stepWinner_eq p s i hk hi]

theorem specStep_allocCount (p : SDParams) (s : SpecState) :
    (specStep p s).cache.allocCount =
      s.cache.allocCount + bsizeOf s * p.top_k := by
  rw [specStep_cache, reconcile_allocCount, stepCacheMid, agt_allocCount,
    addChildrenAll_allocCount]
  rfl

theorem specStep_nextId (p : SDParams) (s : SpecState) :
    (specStep p s).cache.nextId = s.cache.nextId + bsizeOf s * p.top_k := by
  rw [specStep_cache, reconcile_nextId, stepCacheMid, agt_nextId,
    addChildrenAll_nextId]
  rfl

theorem specStep_freedCount (p : SDParams) (s : SpecState)
    (hk : 1 ≤ p.top_k) :
    (specStep p s).cache.freedCount =
      s.cache.freedCount + bsizeOf s * (p.top_k - 1) := by
  rw [specStep_cache,
    reconcile_freedCount (k := p.top_k) p.n_adds (stepTriples p s)
      (fun tr htr =>
        ⟨chunked_len (stepTriples p s) s.cache.nextId
          (stepTriples_chunked p s) tr htr,
         stepTriples_bests_lt p s hk tr htr⟩),
    stepTriples_length, stepCacheMid, agt_freedCount,
    addChildrenAll_freedCount]

theorem specStep_cacheWF (p : SDParams) (s : SpecState)
    (hk : 1 ≤ p.top_k) (hwf : cacheWF s.cache) :
    cacheWF (specStep p s).cache := by
  intro sid hs
  rw [specStep_nextId] at hs
  rw [specStep_cache,
    reconcile_store_ge (k := p.top_k) p.n_adds (stepTriples p s)
      s.cache.nextId _ (stepTriples_chunked p s)
      (stepTriples_bests_lt p s hk) sid
      (by rw [stepTriples_length]; omega)]
  rw [stepCacheMid, agt_store_not_mem _ _ _ sid (by
    intro hmem
    rw [stepChildIds_closed, flatten_chunk_ids] at hmem
    have := mem_range_map_add hmem
    omega)]
  rw [addChildrenAll_store_ge s.parentIds s.cache p.top_k sid (by
    show s.cache.nextId + s.parentIds.length * p.top_k ≤ sid
    have hb : bsizeOf s * p.top_k = s.parentIds.length * p.top_k := rfl
    omega)]
  exact hwf sid (by omega)

theorem specStep_nGen (p : SDParams) (s : SpecState) :
    (specStep p s).nGen =
      (List.range (bsizeOf s)).map
        (fun i => s.nGen.getD i 0 + (ncOf p s i + 1)) := rfl

theorem specStep_result (p : SDParams) (s : SpecState) :
    (specStep p s).result =
      (List.range (bsizeOf s)).map
        (fun i => s.result.getD i [] ++ acceptedOf p s i) := rfl

theorem specStep_nSteps (p : SDParams) (s : SpecState) :
    (specStep p s).nSteps = s.nSteps + 1 := rfl

theorem specStep_bsize (p : SDParams) (s : SpecState) :
    bsizeOf (specStep p s) = bsizeOf s := by
  show (specStep p s).parentIds.length = bsizeOf s
  rw [specStep_parentIds, reconcile_parents, List.length_map,
    stepTriples_length]

theorem specStep_storedLen (p : SDParams) (s : SpecState) (i : Nat)
    (hspk : SpkWF p) (ha : 1 ≤ p.n_adds) (hk : 1 ≤ p.top_k)
    (hi : i < bsizeOf s)
    (hpar : ∀ pid ∈ s.parentIds, pid < s.cache.nextId) :
    storedLen (specStep p s) i =
      storedLen s i + (ncOf p s i + 1) := by
  rw [storedLen, specStep_parentIds_getD p s i hk hi]
  unfold PagedKVCache.lookup
  rw [specStep_winner_store p s i hspk ha hk hi hpar]
  have hrl : (rowInput p s (i * p.top_k + bestOf p s i)).length = p.n_adds :=
    rowInput_length p s _ hspk ha (by
      have h1 := imajor_lt p s i hk hi
      have h2 : p.top_k * bsizeOf s = bsizeOf s * p.top_k := Nat.mul_comm _ _
      omega)
  have hnc := ncOf_le p s i
  simp only [Option.getD_some, List.length_append, List.length_take, hrl]
  rw [storedLen]
  omega

/-! ### The loop invariant -/

/-- The common padded prompt length (`max_len` in the source). -/
def padLen (prompts : List (List Token)) : Nat :=
  maxList (prompts.map List.length)

/-- Invariant maintained by every round of `speculative_generate`:
the batch shape is stable, the cache is well formed, the parent handles are
live ids below the allocation frontier, each sequence's stored context length
is the primed length `max_len - 1` plus its generated-token count, and each
result extends its original prompt. -/
def Inv (p : SDParams) (prompts : List (List Token)) (s : SpecState) : Prop :=
  bsizeOf s = prompts.length ∧
  s.result.length = prompts.length ∧
  s.nGen.length = prompts.length ∧
  cacheWF s.cache ∧
  (∀ pid ∈ s.parentIds, pid < s.cache.nextId) ∧
  ∀ i, i < prompts.length →
    storedLen s i = (padLen prompts - 1) + s.nGen.getD i 0 ∧
    ∃ t, s.result.getD i [] = prompts.getD i [] ++ t

theorem padRow_length (L : Nat) (row : List Token) (h : row.length ≤ L) :
    (padRow L row).length = L := by
  simp [padRow]
  omega

theorem prompt_length_le_padLen (prompts : List (List Token)) (i : Nat)
    (hi : i < prompts.length) :
    (prompts.getD i []).length ≤ padLen prompts := by
  apply le_maxList
  have : (prompts.getD i []).length =
      (prompts.map List.length).getD i ([] : List Token).length := by
    rw [getD_map prompts List.length i hi]
  rw [this]
  apply getD_mem
  simpa using hi

theorem initState_bsize (prompts : List (List Token)) :
    bsizeOf (initState prompts) = prompts.length := by
  show (initState prompts).parentIds.length = prompts.length
  simp [initState, PagedKVCache.allocate_initial_prompt, emptyCache]

theorem initState_parentIds_getD (prompts : List (List Token)) (i : Nat)
    (hi : i < prompts.length) :
    (initState prompts).parentIds.getD i 0 = i := by
  show ((List.range ((prompts.map (padRow (padLen prompts))).map
      List.dropLast).length).map (fun j => emptyCache.nextId + j)).getD i 0 = i
  rw [getD_map_range _ _ i (by simpa using hi)]
  simp [emptyCache]

theorem initState_store (prompts : List (List Token)) (i : Nat)
    (hi : i < prompts.length) :
    (initState prompts).cache.store i =
      some ((padRow (padLen prompts) (prompts.getD i [])).dropLast) := by
  show (if emptyCache.nextId ≤ i ∧
      i < emptyCache.nextId + ((prompts.map (padRow (padLen prompts))).map
        List.dropLast).length then
      some (((prompts.map (padRow (padLen prompts))).map List.dropLast).getD
        (i - emptyCache.nextId) [])
    else emptyCache.store i) = _
  have hc : emptyCache.nextId = 0 := rfl
  rw [if_pos (by rw [hc]; exact ⟨Nat.zero_le i, by simpa using hi⟩)]
  congr 1
  rw [hc, Nat.sub_zero,
    getD_map _ List.dropLast i (by simpa using hi) [],
    getD_map prompts (padRow (padLen prompts)) i hi []]

theorem initState_cacheWF (prompts : List (List Token)) :
    cacheWF (initState prompts).cache := by
  intro sid hs
  show (if emptyCache.nextId ≤ sid ∧
      sid < emptyCache.nextId + ((prompts.map (padRow (padLen prompts))).map
        List.dropLast).length then _ else emptyCache.store sid) = none
  have hc : emptyCache.nextId = 0 := rfl
  have hlen : (initState prompts).cache.nextId =
      ((prompts.map (padRow (padLen prompts))).map List.dropLast).length := by
    simp [initState, PagedKVCache.allocate_initial_prompt, emptyCache]
  rw [if_neg (by omega)]
  rfl

theorem initState_storedLen (prompts : List (List Token)) (i : Nat)
    (hi : i < prompts.length) :
    storedLen (initState prompts) i = padLen prompts - 1 := by
  rw [storedLen, initState_parentIds_getD prompts i hi]
  unfold PagedKVCache.lookup
  rw [initState_store prompts i hi]
  simp only [Option.getD_some, List.length_dropLast]
  rw [padRow_length _ _ (prompt_length_le_padLen prompts i hi)]

theorem Inv_initState (p : SDParams) (prompts : List (List Token)) :
    Inv p prompts (initState prompts) := by
  refine ⟨initState_bsize prompts, ?_, ?_, initState_cacheWF prompts, ?_, ?_⟩
  · show prompts.length = prompts.length
    rfl
  · show (List.replicate prompts.length 0).length = prompts.length
    simp
  · intro pid hpid
    have : (initState prompts).parentIds =
        (List.range ((prompts.map (padRow (padLen prompts))).map
          List.dropLast).length).map (fun j => emptyCache.nextId + j) := rfl
    rw [this] at hpid
    rcases List.mem_map.mp hpid with ⟨j, hj, rfl⟩
    have hjr := List.mem_range.mp hj
    show emptyCache.nextId + j <
      0 + ((prompts.map (padRow (padLen prompts))).map List.dropLast).length
    simp only [emptyCache] at *
    omega
  · intro i hi
    constructor
    · rw [initState_storedLen prompts i hi]
      show _ = padLen prompts - 1 + (List.replicate prompts.length 0).getD i 0
      have : (List.replicate prompts.length 0).getD i 0 = 0 :=
        getD_replicate _ _ _
      rw [this]
      rfl
    · exact ⟨[], (List.append_nil _).symm⟩

theorem Inv_specStep (p : SDParams) (prompts : List (List Token))
    (s : SpecState) (hinv : Inv p prompts s) (hspk : SpkWF p)
    (hk : 1 ≤ p.top_k) (ha : 1 ≤ p.n_adds) :
    Inv p prompts (specStep p s) := by
  obtain ⟨hb, hres, hgen, hwf, hpar, hper⟩ := hinv
  refine ⟨?_, ?_, ?_, specStep_cacheWF p s hk hwf, ?_, ?_⟩
  · rw [specStep_bsize, hb]
  · rw [specStep_result, List.length_map, List.length_range, hb]
  · rw [specStep_nGen, List.length_map, List.length_range, hb]
  · intro pid hpid
    rw [specStep_parentIds, reconcile_parents] at hpid
    rcases List.mem_map.mp hpid with ⟨tr, htr, rfl⟩
    have hlen : tr.1.length = p.top_k :=
      chunked_len _ _ (stepTriples_chunked p s) tr htr
    have hbl : tr.2.1 < p.top_k := stepTriples_bests_lt p s hk tr htr
    have hwm : winnerOfTriple tr ∈ tr.1 := getD_mem _ _ (by omega) 0
    have hub := chunked_ids_lt (stepTriples p s) s.cache.nextId
      (stepTriples_chunked p s) tr htr _ hwm
    rw [stepTriples_length] at hub
    rw [specStep_nextId]
    omega
  · intro i hi
    have hib : i < bsizeOf s := by rw [hb]; exact hi
    constructor
    · rw [specStep_storedLen p s i hspk ha hk hib hpar]
      have h1 := (hper i hi).1
      rw [specStep_nGen, getD_map_range _ _ i hib]
      omega
    · rcases (hper i hi).2 with ⟨t, ht⟩
      refine ⟨t ++ acceptedOf p s i, ?_⟩
      rw [specStep_result, getD_map_range _ _ i hib, ht, List.append_assoc]

/-! ### The round loop -/

theorem minList_replicate_zero (n : Nat) (hn : 1 ≤ n) :
    minList (List.replicate n 0) = 0 := by
  cases n with
  | zero => omega
  | succ n' =>
    rw [List.replicate_succ, minList]
    have h1 := foldl_min_le (t := List.replicate n' 0) (a := 0)
    omega

theorem specStep_min_lower (p : SDParams) (prompts : List (List Token))
    (s : SpecState) (hinv : Inv p prompts s) (hne : prompts ≠ []) :
    minList s.nGen + 1 ≤ minList (specStep p s).nGen := by
  obtain ⟨hb, _, hgen, _, _, _⟩ := hinv
  have hbp : 1 ≤ prompts.length := by
    cases prompts with
    | nil => simp at hne
    | cons a t => simp
  apply le_minList
  · rw [specStep_nGen]
    intro he
    have := congrArg List.length he
    simp at this
    rw [hb] at this
    omega
  · intro x hx
    rw [specStep_nGen] at hx
    rcases List.mem_map.mp hx with ⟨i, hir, rfl⟩
    have hilt : i < bsizeOf s := List.mem_range.mp hir
    have hmem : s.nGen.getD i 0 ∈ s.nGen := by
      apply getD_mem
      rw [hgen, ← hb]
      exact hilt
    have := minList_le_of_mem hmem
    omega

theorem specStep_min_upper (p : SDParams) (prompts : List (List Token))
    (s : SpecState) (hinv : Inv p prompts s) (hne : prompts ≠ [])
    (ha : 1 ≤ p.n_adds) :
    minList (specStep p s).nGen ≤ minList s.nGen + p.n_adds := by
  obtain ⟨hb, _, hgen, _, _, _⟩ := hinv
  have hbp : 1 ≤ prompts.length := by
    cases prompts with
    | nil => simp at hne
    | cons a t => simp
  have hnn : s.nGen ≠ [] := by
    intro he
    rw [he] at hgen
    simp at hgen
    omega
  rcases List.mem_iff_getElem.mp (minList_mem hnn) with ⟨i0, hi0, hval⟩
  have hi0b : i0 < bsizeOf s := by
    rw [hb, ← hgen]
    exact hi0
  have hentry : (specStep p s).nGen.getD i0 0 =
      s.nGen.getD i0 0 + (ncOf p s i0 + 1) := by
    rw [specStep_nGen, getD_map_range _ _ i0 hi0b]
  have hmem : (specStep p s).nGen.getD i0 0 ∈ (specStep p s).nGen := by
    apply getD_mem
    rw [specStep_nGen, List.length_map, List.length_range]
    exact hi0b
  have h1 := minList_le_of_mem hmem
  have h2 : s.nGen.getD i0 0 = minList s.nGen := by
    rw [getD_eq_getElem _ _ hi0, hval]
  have h3 := ncOf_le p s i0
  omega

theorem specLoop_inv (p : SDParams) (prompts : List (List Token))
    (fuel : Nat) :
    ∀ s : SpecState, Inv p prompts s → SpkWF p → 1 ≤ p.top_k →
      1 ≤ p.n_adds → Inv p prompts (specLoop p fuel s) := by
  induction fuel with
  | zero => intro s hinv _ _ _; exact hinv
  | succ f ih =>
    intro s hinv hspk hk ha
    rw [specLoop]
    by_cases hc : p.new_tokens ≤ minList s.nGen
    · rw [if_pos hc]; exact hinv
    · rw [if_neg hc]
      exact ih _ (Inv_specStep p prompts s hinv hspk hk ha) hspk hk ha

theorem specLoop_nSteps_le (p : SDParams) (fuel : Nat) :
    ∀ s : SpecState, (specLoop p fuel s).nSteps ≤ s.nSteps + fuel := by
  induction fuel with
  | zero => intro s; rw [specLoop]; omega
  | succ f ih =>
    intro s
    rw [specLoop]
    by_cases hc : p.new_tokens ≤ minList s.nGen
    · rw [if_pos hc]; omega
    · rw [if_neg hc]
      have := ih (specStep p s)
      rw [specStep_nSteps] at this
      omega

theorem specLoop_nSteps_ge (p : SDParams) (fuel : Nat) :
    ∀ s : SpecState, s.nSteps ≤ (specLoop p fuel s).nSteps := by
  induction fuel with
  | zero => intro s; rw [specLoop]
  | succ f ih =>
    intro s
    rw [specLoop]
    by_cases hc : p.new_tokens ≤ minList s.nGen
    · rw [if_pos hc]
    · rw [if_neg hc]
      have := ih (specStep p s)
      rw [specStep_nSteps] at this
      omega

theorem specLoop_min_lower (p : SDParams) (prompts : List (List Token))
    (fuel : Nat) :
    ∀ s : SpecState, Inv p prompts s → prompts ≠ [] → SpkWF p →
      1 ≤ p.top_k → 1 ≤ p.n_adds →
      min p.new_tokens (minList s.nGen + fuel) ≤
        minList (specLoop p fuel s).nGen := by
  induction fuel with
  | zero => intro s _ _ _ _ _; rw [specLoop]; omega
  | succ f ih =>
    intro s hinv hne hspk hk ha
    rw [specLoop]
    by_cases hc : p.new_tokens ≤ minList s.nGen
    · rw [if_pos hc]; omega
    · rw [if_neg hc]
      have hstep := specStep_min_lower p prompts s hinv hne
      have := ih (specStep p s) (Inv_specStep p prompts s hinv hspk hk ha)
        hne hspk hk ha
      omega

theorem specLoop_min_upper (p : SDParams) (prompts : List (List Token))
    (fuel : Nat) :
    ∀ s : SpecState, Inv p prompts s → prompts ≠ [] → SpkWF p →
      1 ≤ p.top_k → 1 ≤ p.n_adds →
      minList (specLoop p fuel s).nGen ≤
        minList s.nGen +
          p.n_adds * ((specLoop p fuel s).nSteps - s.nSteps) := by
  induction fuel with
  | zero => intro s _ _ _ _ _; rw [specLoop]; simp
  | succ f ih =>
    intro s hinv hne hspk hk ha
    rw [specLoop]
    by_cases hc : p.new_tokens ≤ minList s.nGen
    · rw [if_pos hc]; simp
    · rw [if_neg hc]
      have hstep := specStep_min_upper p prompts s hinv hne ha
      have hrec := ih (specStep p s) (Inv_specStep p prompts s hinv hspk hk ha)
        hne hspk hk ha
      have hge := specLoop_nSteps_ge p f (specStep p s)
      rw [specStep_nSteps] at hrec hge
      have hd : (specLoop p f (specStep p s)).nSteps - s.nSteps =
          ((specLoop p f (specStep p s)).nSteps - (s.nSteps + 1)) + 1 := by
        omega
      rw [hd, Nat.mul_succ]
      omega

/-! ### Claim C9: `truncate_after_eos` -/

theorem findIdx?_not_mem (l : List Token) (e : Token) (h : e ∉ l) :
    l.findIdx? (fun t => t == e) = none := by
  rw [List.findIdx?_eq_none_iff]
  intro x hx
  simp only [beq_eq_false_iff_ne]
  intro he
  exact h (he ▸ hx)

theorem findIdx?_mem_spec (l : List Token) (e : Token) (h : e ∈ l) :
    ∃ i, i < l.length ∧ l.findIdx? (fun t => t == e) = some i ∧
      l.get? i = some e ∧ ∀ j, j < i → l.get? j ≠ some e := by
  induction l with
  | nil => cases h
  | cons a t ih =>
    by_cases hae : a = e
    · refine ⟨0, by simp, ?_, by simp [hae], by omega⟩
      rw [List.findIdx?_cons, if_pos (by simp [hae])]
    · have hmem : e ∈ t := by
        rcases List.mem_cons.mp h with h1 | h2
        · exact absurd h1.symm hae
        · exact h2
      rcases ih hmem with ⟨i, hlen, hfind, hget, hbefore⟩
      refine ⟨i + 1, by simpa using hlen, ?_, by simpa using hget, ?_⟩
      · rw [List.findIdx?_cons, if_neg (by simp [hae]), List.findIdx?_succ,
          hfind]
        rfl
      · intro j hj
        cases j with
        | zero => simp [hae]
        | succ j' =>
          have := hbefore j' (by omega)
          simpa using this

/-- C9: `truncate_after_eos` returns its input unchanged when `eos_token_id`
is `None` or does not occur; otherwise it returns the prefix of the input up
to and including the first occurrence of `eos_token_id`. -/
theorem C9_truncate_after_eos (l : List Token) (eos : Option Token) :
    (eos = none → truncate_after_eos l eos = l) ∧
    (∀ e, eos = some e → e ∉ l → truncate_after_eos l eos = l) ∧
    (∀ e, eos = some e → e ∈ l →
      ∃ i, i < l.length ∧ l.get? i = some e ∧
        (∀ j, j < i → l.get? j ≠ some e) ∧
        truncate_after_eos l eos = l.take (i + 1)) := by
  refine ⟨?_, ?_, ?_⟩
  · intro he
    subst he
    rfl
  · intro e he hmem
    subst he
    rw [truncate_after_eos, findIdx?_not_mem l e hmem]
  · intro e he hmem
    subst he
    rcases findIdx?_mem_spec l e hmem with ⟨i, hlen, hfind, hget, hbefore⟩
    refine ⟨i, hlen, hget, hbefore, ?_⟩
    rw [truncate_after_eos, hfind]

/-- C9 witness: concrete run on `[3, 4, 2, 5, 2, 6]` with eos 2: the
returned list is the prefix through the first `2`. -/
theorem C9_witness :
    ∃ i, i < ([3, 4, 2, 5, 2, 6] : List Token).length ∧
      ([3, 4, 2, 5, 2, 6] : List Token).get? i = some 2 ∧
      (∀ j, j < i → ([3, 4, 2, 5, 2, 6] : List Token).get? j ≠ some 2) ∧
      truncate_after_eos [3, 4, 2, 5, 2, 6] (some 2) =
        ([3, 4, 2, 5, 2, 6] : List Token).take (i + 1) :=
  (C9_truncate_after_eos [3, 4, 2, 5, 2, 6] (some 2)).2.2 2 rfl (by decide)

/-! ### Claim C7: entry-point guards of `generate` -/

/-- C7: `generate` fails before any model computation when beam search is
requested (`num_beams ≠ 1`, the first check), and fails at entry when the
prefix is not a recognized token-id tensor; in both cases the error does not
depend on the model and no result is produced.  (`speculative_generate`
accepts no `num_beams` argument, so beam search cannot even be requested
there.) -/
theorem C7_generate_entry_guards (m m2 : List Token → Token)
    (input : GenInput) (mnt nb : Nat) :
    (nb ≠ 1 → generate m input mnt nb = .error .notImplementedBeamSearch ∧
      generate m input mnt nb = generate m2 input mnt nb) ∧
    (nb = 1 → input = GenInput.notTensor →
      generate m input mnt nb = .error .requiresTokenTensor ∧
      generate m input mnt nb = generate m2 input mnt nb) ∧
    (∀ res, nb ≠ 1 ∨ input = GenInput.notTensor →
      generate m input mnt nb ≠ .ok res) := by
  refine ⟨?_, ?_, ?_⟩
  · intro hnb
    exact ⟨by simp [generate, hnb], by simp [generate, hnb]⟩
  · intro hnb hin
    subst hin
    exact ⟨by simp [generate, hnb], by simp [generate, hnb]⟩
  · intro res hcase hcontra
    rcases hcase with h1 | h2
    · simp [generate, h1] at hcontra
    · subst h2
      by_cases hnb : nb ≠ 1
      · simp [generate, hnb] at hcontra
      · simp [generate, hnb] at hcontra

/-- C7 witness: with `num_beams = 2` the beam-search error is raised whatever
the model or input, and with a non-tensor prefix the input error is raised. -/
theorem C7_witness :
    generate (fun _ => 0) (GenInput.tensor1d [5]) 4 2 =
      .error .notImplementedBeamSearch ∧
    generate (fun _ => 0) GenInput.notTensor 4 1 =
      .error .requiresTokenTensor :=
  ⟨((C7_generate_entry_guards (fun _ => 0) (fun _ => 1)
      (GenInput.tensor1d [5]) 4 2).1 (by omega)).1,
   ((C7_generate_entry_guards (fun _ => 0) (fun _ => 1)
      GenInput.notTensor 4 1).2.1 rfl rfl).1⟩

/-! ### Concrete instances used by counterexamples and witnesses -/

/-- A deterministic model that always emits token 7. -/
def exModel : List Token → Token := fun _ => 7

/-- A speculator with one head and one candidate, always proposing token 9. -/
def exSpk1 : List Token → Token → List (List Token) := fun _ _ => [[9]]

/-- A speculator with one head and two candidates, proposing 9 and 8. -/
def exSpk2 : List Token → Token → List (List Token) := fun _ _ => [[9], [8]]

def exP1 : SDParams := ⟨exModel, exSpk1, 1, 2, 1⟩

def exP2 : SDParams := ⟨exModel, exSpk2, 2, 2, 1⟩

theorem exP1_spkWF : SpkWF exP1 := by
  intro e t
  refine ⟨rfl, ?_⟩
  intro sfx hs
  rcases List.mem_cons.mp hs with h1 | h2
  · subst h1; rfl
  · cases h2

theorem exP2_spkWF : SpkWF exP2 := by
  intro e t
  refine ⟨rfl, ?_⟩
  intro sfx hs
  rcases List.mem_cons.mp hs with h1 | h2
  · subst h1; rfl
  · rcases List.mem_cons.mp h2 with h3 | h4
    · subst h3; rfl
    · cases h4

/-! ### Claim C1: the cache-length invariant -/

/-- C1 counterexample: one sequence with prompt `[5, 6]`, one speculator
head, one candidate, one round.  After the round exactly one token has been
generated, but the stored context length is 2, not
`prompt_length + n_generated = 3`: the cache was primed with the prompt
minus its last token, and the round's final accepted token is not yet
written (it is the next round's pending input). -/
theorem C1_counterexample :
    storedLen (runState exP1 [[5, 6]]) 0 = 2 ∧
    (runState exP1 [[5, 6]]).nGen.getD 0 0 = 1 ∧
    ([5, 6] : List Token).length = 2 ∧
    storedLen (runState exP1 [[5, 6]]) 0 ≠
      ([5, 6] : List Token).length + (runState exP1 [[5, 6]]).nGen.getD 0 0 := by
  decide

/-- C1 (amended): after every round, each sequence's stored context length
equals `(padded prompt length - 1) + n_generated` — i.e.
`prompt_length + left_pad_count - 1 + n_generated`, one less than the claim
states, because the priming pass stores the padded prompt minus its final
token and each round's final accepted token is held back as the next round's
input.  The per-round accounting the claim describes is exact: each round
allocates `n_adds` slots on the winning child and removes
`n_adds - 1 - n_correct` of them, retaining `n_correct + 1` net, matching
the increment of `n_gen`. -/
theorem C1_cache_length_amended (p : SDParams) (prompts : List (List Token))
    (hspk : SpkWF p) (hk : 1 ≤ p.top_k) (ha : 1 ≤ p.n_adds) :
    (∀ s, Inv p prompts s → ∀ i, i < prompts.length →
      storedLen (specStep p s) i = storedLen s i + (ncOf p s i + 1) ∧
      (specStep p s).nGen.getD i 0 = s.nGen.getD i 0 + (ncOf p s i + 1)) ∧
    (∀ i, i < prompts.length →
      storedLen (runState p prompts) i =
        (padLen prompts - 1) + (runState p prompts).nGen.getD i 0) := by
  constructor
  · intro s hinv i hi
    obtain ⟨hb, _, _, _, hpar, _⟩ := hinv
    have hib : i < bsizeOf s := by rw [hb]; exact hi
    refine ⟨specStep_storedLen p s i hspk ha hk hib hpar, ?_⟩
    rw [specStep_nGen, getD_map_range _ _ i hib]
  · intro i hi
    have hinv : Inv p prompts (runState p prompts) :=
      specLoop_inv p prompts p.new_tokens (initState prompts)
        (Inv_initState p prompts) hspk hk ha
    exact (hinv.2.2.2.2.2 i hi).1

/-- C1 witness: the amended invariant evaluated on the concrete
one-sequence run: stored length 2 = (2 - 1) + 1. -/
theorem C1_witness :
    storedLen (runState exP1 [[5, 6]]) 0 =
      (padLen [[5, 6]] - 1) + (runState exP1 [[5, 6]]).nGen.getD 0 0 :=
  (C1_cache_length_amended exP1 [[5, 6]] exP1_spkWF (by decide)
    (by decide)).2 0 (by decide)

/-! ### Claim C6: branch/free balance -/

/-- C6 counterexample: one sequence, `top_k = 2`, one round.  Three ids were
allocated (one initial parent, two children) and one freed (the losing
child), so allocated minus freed is 2, not `batch_size = 1`: the retired
parent id is never freed.  Moreover the final winner's cache is still
allocated after generation ends — `speculative_generate` returns without
freeing (unlike `generate`). -/
theorem C6_counterexample :
    (runState exP2 [[5, 6]]).cache.allocCount = 3 ∧
    (runState exP2 [[5, 6]]).cache.freedCount = 1 ∧
    (runState exP2 [[5, 6]]).cache.allocCount -
      (runState exP2 [[5, 6]]).cache.freedCount ≠ 1 ∧
    (runState exP2 [[5, 6]]).cache.isAlive
      ((runState exP2 [[5, 6]]).parentIds.getD 0 0) = true := by
  decide

/-- C6 (amended): each round allocates `batch_size * top_k` child ids and
frees `batch_size * (top_k - 1)` of them, so after `r` rounds
`allocated - freed = batch_size * (1 + r)`: the former parent of each round
is never freed when its winning child is promoted, and no sequence cache is
freed when generation completes. -/
theorem C6_alloc_free_amended (p : SDParams) (prompts : List (List Token))
    (hspk : SpkWF p) (hk : 1 ≤ p.top_k) (ha : 1 ≤ p.n_adds) :
    (∀ s, Inv p prompts s →
      (specStep p s).cache.allocCount =
        s.cache.allocCount + prompts.length * p.top_k ∧
      (specStep p s).cache.freedCount =
        s.cache.freedCount + prompts.length * (p.top_k - 1)) ∧
    ((runState p prompts).cache.allocCount =
      prompts.length + prompts.length * p.top_k * (runState p prompts).nSteps ∧
     (runState p prompts).cache.freedCount =
      prompts.length * (p.top_k - 1) * (runState p prompts).nSteps ∧
     (runState p prompts).cache.allocCount -
        (runState p prompts).cache.freedCount =
      prompts.length * (1 + (runState p prompts).nSteps)) := by
  have hstep : ∀ s, Inv p prompts s →
      (specStep p s).cache.allocCount =
        s.cache.allocCount + prompts.length * p.top_k ∧
      (specStep p s).cache.freedCount =
        s.cache.freedCount + prompts.length * (p.top_k - 1) := by
    intro s hinv
    have hb : bsizeOf s = prompts.length := hinv.1
    constructor
    · rw [specStep_allocCount, hb]
    · rw [specStep_freedCount p s hk, hb]
  refine ⟨hstep, ?_⟩
  have hloop : ∀ fuel : Nat, ∀ s, Inv p prompts s →
      s.cache.allocCount =
        prompts.length + prompts.length * p.top_k * s.nSteps →
      s.cache.freedCount = prompts.length * (p.top_k - 1) * s.nSteps →
      (specLoop p fuel s).cache.allocCount =
        prompts.length +
          prompts.length * p.top_k * (specLoop p fuel s).nSteps ∧
      (specLoop p fuel s).cache.freedCount =
        prompts.length * (p.top_k - 1) * (specLoop p fuel s).nSteps := by
    intro fuel
    induction fuel with
    | zero => intro s _ h1 h2; rw [specLoop]; exact ⟨h1, h2⟩
    | succ f ih =>
      intro s hinv h1 h2
      rw [specLoop]
      by_cases hc : p.new_tokens ≤ minList s.nGen
      · rw [if_pos hc]; exact ⟨h1, h2⟩
      · rw [if_neg hc]
        have hst := hstep s hinv
        apply ih (specStep p s) (Inv_specStep p prompts s hinv hspk hk ha)
        · rw [hst.1, h1, specStep_nSteps, Nat.mul_succ]
          omega
        · rw [hst.2, h2, specStep_nSteps, Nat.mul_succ]
  have hinit_alloc : (initState prompts).cache.allocCount =
      prompts.length + prompts.length * p.top_k * (initState prompts).nSteps := by
    show 0 + ((prompts.map (padRow (padLen prompts))).map List.dropLast).length =
      prompts.length + prompts.length * p.top_k * 0
    simp
  have hinit_freed : (initState prompts).cache.freedCount =
      prompts.length * (p.top_k - 1) * (initState prompts).nSteps := by
    show 0 = prompts.length * (p.top_k - 1) * 0
    simp
  have hrun := hloop p.new_tokens (initState prompts) (Inv_initState p prompts)
    hinit_alloc hinit_freed
  have hA : (runState p prompts).cache.allocCount =
      prompts.length + prompts.length * p.top_k * (runState p prompts).nSteps :=
    hrun.1
  have hF : (runState p prompts).cache.freedCount =
      prompts.length * (p.top_k - 1) * (runState p prompts).nSteps := hrun.2
  refine ⟨hA, hF, ?_⟩
  rw [hA, hF]
  have hfree_le : prompts.length * (p.top_k - 1) * (runState p prompts).nSteps ≤
      prompts.length * p.top_k * (runState p prompts).nSteps := by
    apply Nat.mul_le_mul_right
    apply Nat.mul_le_mul_left
    omega
  have hsplit : prompts.length * p.top_k * (runState p prompts).nSteps =
      prompts.length * (p.top_k - 1) * (runState p prompts).nSteps +
        prompts.length * (runState p prompts).nSteps := by
    have : p.top_k = (p.top_k - 1) + 1 := by omega
    rw [this]
    rw [Nat.mul_add, Nat.mul_one, Nat.add_mul]
    have : p.top_k - 1 + 1 - 1 = p.top_k - 1 := by omega
    rw [this]
  rw [hsplit]
  have : prompts.length * (1 + (runState p prompts).nSteps) =
      prompts.length + prompts.length * (runState p prompts).nSteps := by
    rw [Nat.mul_add, Nat.mul_one]
  omega

/-- C6 witness: the amended balance on the concrete run:
3 allocated = 1 + 1*2*1, 1 freed = 1*1*1, and 3 - 1 = 1 * (1 + 1). -/
theorem C6_witness :
    (runState exP2 [[5, 6]]).cache.allocCount -
      (runState exP2 [[5, 6]]).cache.freedCount =
    ([[5, 6]] : List (List Token)).length *
      (1 + (runState exP2 [[5, 6]]).nSteps) :=
  (C6_alloc_free_amended exP2 [[5, 6]] exP2_spkWF (by decide)
    (by decide)).2.2.2

/-! ### Claim C2: progress and termination -/

/-- C2: in every round each sequence's accepted-token count is
`n_correct + 1 ∈ [1, n_adds]`; the loop (run on `new_tokens` units of fuel,
which the per-round progress shows always suffice) terminates with every
sequence holding at least `new_tokens` generated tokens, after at most
`new_tokens` rounds and at least `⌈new_tokens / n_adds⌉` rounds. -/
theorem C2_progress_and_termination (p : SDParams)
    (prompts : List (List Token)) (hspk : SpkWF p) (hk : 1 ≤ p.top_k)
    (ha : 1 ≤ p.n_adds) (hne : prompts ≠ []) :
    (∀ s, Inv p prompts s → ∀ i, i < prompts.length →
      (specStep p s).nGen.getD i 0 = s.nGen.getD i 0 + (ncOf p s i + 1) ∧
      1 ≤ ncOf p s i + 1 ∧ ncOf p s i + 1 ≤ p.n_adds) ∧
    p.new_tokens ≤ minList (runState p prompts).nGen ∧
    (∀ i, i < prompts.length →
      p.new_tokens ≤ (runState p prompts).nGen.getD i 0) ∧
    (runState p prompts).nSteps ≤ p.new_tokens ∧
    p.new_tokens ≤ p.n_adds * (runState p prompts).nSteps ∧
    (p.new_tokens + p.n_adds - 1) / p.n_adds ≤ (runState p prompts).nSteps := by
  have hbp : 1 ≤ prompts.length := by
    cases prompts with
    | nil => simp at hne
    | cons a t => simp
  have hinv0 : Inv p prompts (initState prompts) := Inv_initState p prompts
  have hmin0 : minList (initState prompts).nGen = 0 := by
    show minList (List.replicate prompts.length 0) = 0
    exact minList_replicate_zero prompts.length hbp
  have hinvrun : Inv p prompts (runState p prompts) :=
    specLoop_inv p prompts p.new_tokens (initState prompts) hinv0 hspk hk ha
  have hminrun : p.new_tokens ≤ minList (runState p prompts).nGen := by
    have := specLoop_min_lower p prompts p.new_tokens (initState prompts)
      hinv0 hne hspk hk ha
    rw [hmin0] at this
    have hrs : runState p prompts = specLoop p p.new_tokens (initState prompts) :=
      rfl
    rw [hrs]
    omega
  have hsteps_le : (runState p prompts).nSteps ≤ p.new_tokens := by
    have := specLoop_nSteps_le p p.new_tokens (initState prompts)
    have hz : (initState prompts).nSteps = 0 := rfl
    rw [hz] at this
    have hrs : runState p prompts = specLoop p p.new_tokens (initState prompts) :=
      rfl
    rw [hrs]
    omega
  have hmul : p.new_tokens ≤ p.n_adds * (runState p prompts).nSteps := by
    have hup := specLoop_min_upper p prompts p.new_tokens (initState prompts)
      hinv0 hne hspk hk ha
    rw [hmin0] at hup
    have hz : (initState prompts).nSteps = 0 := rfl
    rw [hz, Nat.sub_zero] at hup
    have hrs : runState p prompts = specLoop p p.new_tokens (initState prompts) :=
      rfl
    rw [hrs]
    rw [hrs] at hminrun
    omega
  refine ⟨?_, hminrun, ?_, hsteps_le, hmul, ?_⟩
  · intro s hinv i hi
    obtain ⟨hb, _, _, _, _, _⟩ := hinv
    have hib : i < bsizeOf s := by rw [hb]; exact hi
    refine ⟨by rw [specStep_nGen, getD_map_range _ _ i hib], by omega, ?_⟩
    have := ncOf_le p s i
    omega
  · intro i hi
    have hmem : (runState p prompts).nGen.getD i 0 ∈
        (runState p prompts).nGen := by
      apply getD_mem
      rw [hinvrun.2.2.1]
      exact hi
    have := minList_le_of_mem hmem
    omega
  · rw [Nat.div_le_iff_le_mul_add_pred (by omega)]
    have h1 : p.n_adds * (runState p prompts).nSteps =
        (runState p prompts).nSteps * p.n_adds := Nat.mul_comm _ _
    omega

/-- C2 witness: on the concrete one-round run with `new_tokens = 1`:
the minimum generated count reaches the target and the round count is
within the stated bounds. -/
theorem C2_witness :
    exP1.new_tokens ≤ minList (runState exP1 [[5, 6]]).nGen :=
  (C2_progress_and_termination exP1 [[5, 6]] exP1_spkWF (by decide)
    (by decide) (by decide)).2.1

/-! ### Claim C10: results are append-only -/

/-- C10: each round appends exactly `n_correct + 1` freshly emitted tokens
to each sequence's result; nothing is ever removed or modified, and after
every round the original prompt is a prefix of the result. -/
theorem C10_result_append_only (p : SDParams) (prompts : List (List Token))
    (hspk : SpkWF p) (hk : 1 ≤ p.top_k) (ha : 1 ≤ p.n_adds) :
    (∀ s, Inv p prompts s → ∀ i, i < prompts.length →
      (specStep p s).result.getD i [] =
        s.result.getD i [] ++ acceptedOf p s i ∧
      (acceptedOf p s i).length = ncOf p s i + 1) ∧
    (∀ i, i < prompts.length →
      ∃ t, (runState p prompts).result.getD i [] = prompts.getD i [] ++ t) := by
  constructor
  · intro s hinv i hi
    have hib : i < bsizeOf s := by rw [hinv.1]; exact hi
    constructor
    · rw [specStep_result, getD_map_range _ _ i hib]
    · exact acceptedOf_length p s i hspk ha hk hib
  · intro i hi
    have hinvrun : Inv p prompts (runState p prompts) :=
      specLoop_inv p prompts p.new_tokens (initState prompts)
        (Inv_initState p prompts) hspk hk ha
    exact (hinvrun.2.2.2.2.2 i hi).2

/-- C10 witness: the concrete run's result extends its prompt. -/
theorem C10_witness :
    ∃ t, (runState exP1 [[5, 6]]).result.getD 0 [] =
      ([[5, 6]] : List (List Token)).getD 0 [] ++ t :=
  (C10_result_append_only exP1 [[5, 6]] exP1_spkWF (by decide)
    (by decide)).2 0 (by decide)

/-! ### Claim C5: the paged reconciliation -/

/-- C5: in every round, per parent the `top_k - 1` non-winning children are
freed (`batch * (top_k - 1)` frees in total), the winning child is promoted
to be the next round's parent and remains allocated, and exactly
`n_adds - 1 - n_correct` of its `n_adds` freshly written tokens are removed,
leaving the parent's context plus `n_correct + 1` tokens; the same formula
applies without case distinction at `n_correct = 0` and
`n_correct = n_adds - 1`. -/
theorem C5_paged_reconciliation (p : SDParams) (prompts : List (List Token))
    (s : SpecState) (hinv : Inv p prompts s) (hspk : SpkWF p)
    (hk : 1 ≤ p.top_k) (ha : 1 ≤ p.n_adds) (i : Nat)
    (hi : i < prompts.length) :
    (specStep p s).parentIds.getD i 0 =
      s.cache.nextId + (i * p.top_k + bestOf p s i) ∧
    (specStep p s).cache.store ((specStep p s).parentIds.getD i 0) =
      some (s.cache.lookup (s.parentIds.getD i 0) ++
        (rowInput p s (i * p.top_k + bestOf p s i)).take (ncOf p s i + 1)) ∧
    (specStep p s).cache.isAlive ((specStep p s).parentIds.getD i 0) = true ∧
    storedLen (specStep p s) i + (p.n_adds - 1 - ncOf p s i) =
      storedLen s i + p.n_adds ∧
    (specStep p s).cache.freedCount =
      s.cache.freedCount + prompts.length * (p.top_k - 1) ∧
    (ncOf p s i = 0 → storedLen (specStep p s) i = storedLen s i + 1) ∧
    (ncOf p s i = p.n_adds - 1 →
      storedLen (specStep p s) i = storedLen s i + p.n_adds) := by
  obtain ⟨hb, _, _, _, hpar, _⟩ := hinv
  have hib : i < bsizeOf s := by rw [hb]; exact hi
  have hpid := specStep_parentIds_getD p s i hk hib
  have hstore : (specStep p s).cache.store ((specStep p s).parentIds.getD i 0) =
      some (s.cache.lookup (s.parentIds.getD i 0) ++
        (rowInput p s (i * p.top_k + bestOf p s i)).take (ncOf p s i + 1)) := by
    rw [hpid]
    exact specStep_winner_store p s i hspk ha hk hib hpar
  have hsl := specStep_storedLen p s i hspk ha hk hib hpar
  have hnc := ncOf_le p s i
  refine ⟨hpid, hstore, ?_, by omega, ?_, by omega, by omega⟩
  · rw [PagedKVCache.isAlive, hstore]
    rfl
  · rw [specStep_freedCount p s hk, hb]

/-- C5 witness: the reconciliation facts evaluated on the concrete
one-sequence round from the primed state. -/
theorem C5_witness :
    (specStep exP2 (initState [[5, 6]])).cache.isAlive
      ((specStep exP2 (initState [[5, 6]])).parentIds.getD 0 0) = true ∧
    (specStep exP2 (initState [[5, 6]])).cache.freedCount =
      (initState [[5, 6]] : SpecState).cache.freedCount +
        ([[5, 6]] : List (List Token)).length * (exP2.top_k - 1) :=
  ⟨(C5_paged_reconciliation exP2 [[5, 6]] (initState [[5, 6]])
      (Inv_initState exP2 [[5, 6]]) exP2_spkWF (by decide) (by decide) 0
      (by decide)).2.2.1,
   (C5_paged_reconciliation exP2 [[5, 6]] (initState [[5, 6]])
      (Inv_initState exP2 [[5, 6]]) exP2_spkWF (by decide) (by decide) 0
      (by decide)).2.2.2.2.1⟩

/-! ### Claim C3: verification scoring and selection -/

/-- The spec's formulation of the correctness count: the length of the
maximal prefix on which the model's argmax prediction at position `i` equals
the candidate's proposed token at position `i + 1` (the one-position
rightward roll, with no wrap-around position). -/
def claimAgreeLen (cand preds2 : List Token) : Nat :=
  leadingOnes (List.zipWith (fun a b => a == b) (cand.drop 1) preds2)

theorem zipWith_take_right {α β γ : Type} (f : α → β → γ) (xs : List α)
    (ys : List β) :
    List.zipWith f xs ys = List.zipWith f xs (ys.take xs.length) := by
  induction xs generalizing ys with
  | nil => simp
  | cons a t ih =>
    cases ys with
    | nil => simp
    | cons b u =>
      simp only [List.zipWith_cons_cons, List.length_cons, List.take_succ_cons]
      rw [← ih u]

/-- The source's circular-roll scoring, clamped at `n_adds - 1`, coincides
with the spec's non-circular scoring clamped the same way: the wrap-around
comparison at the final position can only matter when all earlier positions
agree, and then both sides hit the cap. -/
theorem roll_score_eq (cand preds2 : List Token) (na : Nat)
    (hlen : cand.length = preds2.length) (hc : cand.length = na)
    (hna : 1 ≤ na) :
    min (leadingOnes
        (List.zipWith (fun a b => a == b) (rollL cand) preds2)) (na - 1) =
      min (claimAgreeLen cand preds2) (na - 1) := by
  cases cand with
  | nil =>
    simp at hc
    omega
  | cons a t =>
    have hroll : rollL (a :: t) = t ++ [a] := rfl
    have hlent : t.length = (preds2.take t.length).length := by
      rw [List.length_take]
      simp only [List.length_cons] at hlen
      omega
    have hclaim : claimAgreeLen (a :: t) preds2 =
        leadingOnes (List.zipWith (fun x y => x == y) t
          (preds2.take t.length)) := by
      rw [claimAgreeLen]
      simp only [List.drop_one, List.tail_cons]
      rw [zipWith_take_right]
    have hX : (List.zipWith (fun x y => x == y) t
        (preds2.take t.length)).length = t.length := by
      rw [List.length_zipWith, ← hlent]
      simp
    have hsplit :
        List.zipWith (fun x y => x == y) (t ++ [a]) preds2 =
          List.zipWith (fun x y => x == y) t (preds2.take t.length) ++
          List.zipWith (fun x y => x == y) [a] (preds2.drop t.length) := by
      conv_lhs => rw [← List.take_append_drop t.length preds2]
      exact List.zipWith_append _ t [a] _ _ hlent
    rw [hroll, hsplit, leadingOnes_append]
    have hna1 : t.length = na - 1 := by
      simp only [List.length_cons] at hc
      omega
    by_cases hfull : leadingOnes (List.zipWith (fun x y => x == y) t
        (preds2.take t.length)) =
        (List.zipWith (fun x y => x == y) t (preds2.take t.length)).length
    · rw [if_pos hfull, hclaim, hfull, hX, hna1]
      have h1 : na - 1 ≤ na - 1 + leadingOnes (List.zipWith
          (fun x y => x == y) [a] (preds2.drop t.length)) := Nat.le_add_right _ _
      omega
    · rw [if_neg hfull, hclaim]

/-- C3: the source's `n_correct` (`roll`/`eq`/`cumprod`/`sum`/`clamp`) is
exactly the spec's maximal agreeing-prefix length capped at `n_adds - 1`;
and per sequence `argmax` selects the candidate with the maximum count,
breaking ties in favour of the first (lowest) candidate index. -/
theorem C3_scoring_and_selection (p : SDParams) (s : SpecState)
    (hspk : SpkWF p) (hk : 1 ≤ p.top_k) (ha : 1 ≤ p.n_adds) :
    (∀ r, r < p.top_k * bsizeOf s →
      nCorrectRow p s r =
        min (claimAgreeLen (rowInput p s r) (rowNextVals p s r))
          (p.n_adds - 1)) ∧
    (∀ i, i < bsizeOf s →
      (ncListOf p s i).getD (bestOf p s i) 0 = maxList (ncListOf p s i) ∧
      ∀ c, c < bestOf p s i →
        (ncListOf p s i).getD c 0 < maxList (ncListOf p s i)) := by
  constructor
  · intro r hr
    have hlen1 : (rowInput p s r).length = p.n_adds :=
      rowInput_length p s r hspk ha hr
    have hlen2 : (rowNextVals p s r).length = p.n_adds :=
      rowNextVals_length p s r hspk ha hr
    rw [nCorrectRow, testRow]
    exact roll_score_eq (rowInput p s r) (rowNextVals p s r) p.n_adds
      (by omega) hlen1 ha
  · intro i _
    have hlen := ncListOf_length p s i
    have hne : ncListOf p s i ≠ [] := by
      intro he
      rw [he] at hlen
      simp at hlen
      omega
    exact ⟨getD_argmaxFirst hne, fun c hc => getD_lt_of_lt_argmaxFirst hc⟩

/-- C3 witness: scoring and first-index tie-breaking evaluated on the
concrete primed batch. -/
theorem C3_witness :
    nCorrectRow exP2 (initState [[5, 6]]) 0 =
      min (claimAgreeLen (rowInput exP2 (initState [[5, 6]]) 0)
        (rowNextVals exP2 (initState [[5, 6]]) 0)) (exP2.n_adds - 1) ∧
    (ncListOf exP2 (initState [[5, 6]]) 0).getD
        (bestOf exP2 (initState [[5, 6]]) 0) 0 =
      maxList (ncListOf exP2 (initState [[5, 6]]) 0) :=
  ⟨(C3_scoring_and_selection exP2 (initState [[5, 6]]) exP2_spkWF
      (by decide) (by decide)).1 0 (by decide),
   ((C3_scoring_and_selection exP2 (initState [[5, 6]]) exP2_spkWF
      (by decide) (by decide)).2 0 (by decide)).1⟩

/-! ### Claim C8: priming mask and position ids -/

/-- `n_pads_init = [max_len - seq.size(0) for seq in input_ids]`. -/
def nPadsOf (prompts : List (List Token)) : List Nat :=
  prompts.map (fun r => padLen prompts - r.length)

theorem countLeadingPads_replicate_append (pn : Nat) (l : List Token) :
    countLeadingPads (List.replicate pn 0 ++ l) = pn + countLeadingPads l := by
  induction pn with
  | zero => simp
  | succ n ih =>
    rw [List.replicate_succ, List.cons_append]
    have hstep : countLeadingPads (0 :: (List.replicate n 0 ++ l)) =
        countLeadingPads (List.replicate n 0 ++ l) + 1 := by
      rw [countLeadingPads, countLeadingPads, List.takeWhile_cons]
      simp
    rw [hstep, ih]
    omega

theorem countLeadingPads_of_head_ne (l : List Token)
    (h : l.head? ≠ some 0) : countLeadingPads l = 0 := by
  cases l with
  | nil => rfl
  | cons a t =>
    have ha : a ≠ 0 := by
      intro he
      exact h (by rw [he]; rfl)
    rw [countLeadingPads]
    simp [List.takeWhile_cons, ha]

theorem head?_dropLast_ne (r : List Token) (hh : r.head? ≠ some 0) :
    r.dropLast.head? ≠ some 0 := by
  cases r with
  | nil => simp
  | cons a t =>
    cases t with
    | nil => simp
    | cons b u =>
      simp only [List.head?_cons] at hh
      rw [List.dropLast_cons₂]
      simpa using hh

theorem countLeadingPads_padRow (L : Nat) (r : List Token) (hr : r ≠ [])
    (hh : r.head? ≠ some 0) :
    countLeadingPads ((padRow L r).dropLast) = L - r.length := by
  rw [padRow, List.dropLast_append_of_ne_nil _ hr,
    countLeadingPads_replicate_append,
    countLeadingPads_of_head_ne _ (head?_dropLast_ne r hh)]
  omega

/-- C8 counterexample: with prompts of lengths 1 and 3, the shorter
sequence has two left-pad columns, yet the priming mask entry at the pad
position's own diagonal is `log 1 = 0`, not `-∞` (the source `or`s in the
identity matrix so no row is fully masked): not every left-pad column is
assigned `-∞`. -/
theorem C8_counterexample :
    0 < (nPadsOf [[5], [7, 8, 9]]).getD 0 0 ∧
    primingAttend (nPadsOf [[5], [7, 8, 9]]) 0 0 0 = true := by
  decide

/-- C8 (amended): in the priming pass, the position ids are `arange` offset
per sequence by minus its left-pad count, so the first real token of each
sequence has position id 0 (the cache metadata's position offsets, modelled
from the spec, equal the locally computed `pos_ids`); and the mask assigns
`-∞` to every left-pad column in every row except the pad position's own
diagonal entry, which is kept at 0 so its softmax row stays defined — hence
no real (non-pad) position ever attends to a pad position. -/
theorem C8_priming_mask_pos_amended (prompts : List (List Token))
    (hnz : ∀ r ∈ prompts, r ≠ [] ∧ r.head? ≠ some 0) :
    (∀ i, i < prompts.length →
      (position_offset ((prompts.map (padRow (padLen prompts))).map
          List.dropLast)).getD i [] =
        (List.range (padLen prompts - 1)).map
          (fun j => pos_ids (nPadsOf prompts) i j)) ∧
    (∀ i, i < prompts.length →
      pos_ids (nPadsOf prompts) i ((nPadsOf prompts).getD i 0) = 0) ∧
    (∀ b i j, j < (nPadsOf prompts).getD b 0 →
      (primingAttend (nPadsOf prompts) b i j = true ↔ i = j)) ∧
    (∀ b i j, (nPadsOf prompts).getD b 0 ≤ i →
      j < (nPadsOf prompts).getD b 0 →
      primingAttend (nPadsOf prompts) b i j = false) := by
  refine ⟨?_, ?_, ?_, ?_⟩
  · intro i hi
    have hrow := hnz (prompts.getD i []) (getD_mem prompts i hi [])
    have hple := prompt_length_le_padLen prompts i hi
    rw [position_offset,
      getD_map _ _ i (by simpa using hi) ([] : List Token),
      getD_map _ _ i (by simpa using hi) ([] : List Token),
      getD_map prompts _ i hi []]
    have hlen : ((padRow (padLen prompts) (prompts.getD i [])).dropLast).length =
        padLen prompts - 1 := by
      rw [List.length_dropLast, padRow_length _ _ hple]
    rw [hlen]
    apply List.map_congr_left
    intro j _
    rw [countLeadingPads_padRow _ _ hrow.1 hrow.2, pos_ids]
    have hpad : (nPadsOf prompts).getD i 0 =
        padLen prompts - (prompts.getD i []).length := by
      rw [nPadsOf, getD_map prompts _ i hi []]
    rw [hpad]
  · intro i _
    rw [pos_ids]
    omega
  · intro b i j hj
    rw [primingAttend]
    constructor
    · intro htrue
      rcases Bool.or_eq_true_iff.mp htrue with h1 | h2
      · rcases Bool.and_eq_true_iff.mp h1 with ⟨_, h3⟩
        have := of_decide_eq_true h3
        omega
      · exact beq_iff_eq.mp h2
    · intro he
      subst he
      simp
  · intro b i j hge hj
    rw [primingAttend]
    have h1 : decide ((nPadsOf prompts).getD b 0 ≤ j) = false :=
      decide_eq_false (by omega)
    have h2 : (i == j) = false := by
      simp only [beq_eq_false_iff_ne]
      omega
    rw [h1, h2]
    simp

/-- C8 witness: with prompts of lengths 1 and 3, the shorter sequence's
position ids start at `-2` and reach 0 exactly at its first real token, and
no real row of either sequence attends to a pad column. -/
theorem C8_witness :
    (position_offset (([[5], [7, 8, 9]].map
        (padRow (padLen [[5], [7, 8, 9]]))).map List.dropLast)).getD 0 [] =
      (List.range (padLen [[5], [7, 8, 9]] - 1)).map
        (fun j => pos_ids (nPadsOf [[5], [7, 8, 9]]) 0 j) ∧
    pos_ids (nPadsOf [[5], [7, 8, 9]]) 0
      ((nPadsOf [[5], [7, 8, 9]]).getD 0 0) = 0 ∧
    primingAttend (nPadsOf [[5], [7, 8, 9]]) 0 2 0 = false :=
  ⟨(C8_priming_mask_pos_amended [[5], [7, 8, 9]] (by decide)).1 0 (by decide),
   (C8_priming_mask_pos_amended [[5], [7, 8, 9]] (by decide)).2.1 0 (by decide),
   (C8_priming_mask_pos_amended [[5], [7, 8, 9]] (by decide)).2.2.2 0 2 0
     (by decide) (by decide)⟩

/-! ### Claim C4: greedy equivalence -/

theorem generateGreedy_succ (m : List Token → Token) (l : List Token)
    (t : Nat) :
    generateGreedy m l (t + 1) =
      generateGreedy m l t ++ [m (generateGreedy m l t)] := by
  induction t generalizing l with
  | zero => rfl
  | succ t' ih =>
    show generateGreedy m (l ++ [m l]) (t' + 1) = _
    rw [ih (l ++ [m l])]
    rfl

theorem generateGreedy_length (m : List Token → Token) (l : List Token)
    (t : Nat) : (generateGreedy m l t).length = l.length + t := by
  induction t generalizing l with
  | zero => rfl
  | succ t' ih =>
    show (generateGreedy m (l ++ [m l]) t').length = _
    rw [ih (l ++ [m l])]
    simp
    omega

theorem generateGreedy_ne_nil (m : List Token → Token) (l : List Token)
    (t : Nat) (h : l ≠ []) : generateGreedy m l t ≠ [] := by
  intro he
  have := congrArg List.length he
  rw [generateGreedy_length] at this
  simp at this
  exact h this.1

theorem dropLast_append_getLastD (l : List Token) (h : l ≠ []) :
    l.dropLast ++ [l.getLastD 0] = l := by
  have := List.dropLast_append_getLast (l := l) h
  rw [List.getLastD_eq_getLast?, List.getLast?_eq_getLast l h]
  simpa using this

theorem predsRow_cons (m : List Token → Token) (ctx : List Token)
    (a : Token) (t : List Token) :
    predsRow m ctx (a :: t) =
      m (ctx ++ [a]) ::
        (List.range t.length).map
          (fun j => m (ctx ++ (a :: t).take (j + 2))) := by
  rw [predsRow]
  show (List.range (t.length + 1)).map
      (fun j => m (ctx ++ (a :: t).take (j + 1))) = _
  rw [List.range_succ_eq_map, List.map_cons, List.map_map]
  constructor

theorem maxList_replicate_zero (n : Nat) :
    maxList (List.replicate n 0) = 0 := by
  induction n with
  | zero => rfl
  | succ n' ih =>
    rw [List.replicate_succ, maxList, ih]
    simp

theorem argmaxFirst_replicate_zero (n : Nat) :
    argmaxFirst (List.replicate n 0) = 0 := by
  cases n with
  | zero => rfl
  | succ n' =>
    rw [List.replicate_succ, argmaxFirst,
      if_pos (by rw [maxList_replicate_zero])]

/-- The one-sequence always-wrong-speculator simulation invariant: after `t`
rounds the run is exactly `t` steps of the greedy decode. -/
def GInv (p : SDParams) (prompt : List Token) (t : Nat) (s : SpecState) :
    Prop :=
  s.result = [generateGreedy p.m prompt t] ∧
  s.nGen = [t] ∧
  s.nSteps = t ∧
  s.parentIds.length = 1 ∧
  cacheWF s.cache ∧
  (∀ pid ∈ s.parentIds, pid < s.cache.nextId) ∧
  s.cache.lookup (s.parentIds.getD 0 0) =
    (generateGreedy p.m prompt t).dropLast ∧
  s.embedCtxs = [(generateGreedy p.m prompt t).dropLast] ∧
  s.lastToks = [(generateGreedy p.m prompt t).getLastD 0]

theorem ginv_cands (p : SDParams) (prompt : List Token) (t : Nat)
    (s : SpecState) (hg : GInv p prompt t s) :
    candsOf p s 0 =
      (p.spk (generateGreedy p.m prompt t).dropLast
        ((generateGreedy p.m prompt t).getLastD 0)).map
        (fun sfx => (generateGreedy p.m prompt t).getLastD 0 :: sfx) := by
  obtain ⟨_, _, _, _, _, _, _, hemb, hlast⟩ := hg
  rw [candsOf, hemb, hlast]
  rfl

theorem ginv_nCorrectRow_zero (p : SDParams) (prompt : List Token) (t : Nat)
    (s : SpecState) (hg : GInv p prompt t s) (hspk : SpkWF p)
    (ha2 : 2 ≤ p.n_adds) (hpr : prompt ≠ [])
    (hwrong : ∀ e tk sfx, sfx ∈ p.spk e tk →
      sfx.head? ≠ some (p.m (e ++ [tk])))
    (c : Nat) (hc : c < p.top_k) : nCorrectRow p s c = 0 := by
  obtain ⟨_, _, _, hb1, _, _, hlook, hemb, hlast⟩ := hg
  have hbs : bsizeOf s = 1 := hb1
  have hgne : generateGreedy p.m prompt t ≠ [] :=
    generateGreedy_ne_nil p.m prompt t hpr
  have hrow : rowInput p s c = (candsOf p s 0).getD c [] := by
    rw [rowInput, hbs, Nat.mod_one, Nat.div_one]
  have hclen : (p.spk (generateGreedy p.m prompt t).dropLast
      ((generateGreedy p.m prompt t).getLastD 0)).length = p.top_k :=
    (hspk _ _).1
  have hcand : rowInput p s c =
      (generateGreedy p.m prompt t).getLastD 0 ::
        (p.spk (generateGreedy p.m prompt t).dropLast
          ((generateGreedy p.m prompt t).getLastD 0)).getD c [] := by
    rw [hrow, ginv_cands p prompt t s
      ⟨by assumption, by assumption, by assumption, hb1, by assumption,
        by assumption, hlook, hemb, hlast⟩]
    rw [getD_map _ _ c (by rw [hclen]; exact hc) []]
  have hsfx_mem : (p.spk (generateGreedy p.m prompt t).dropLast
      ((generateGreedy p.m prompt t).getLastD 0)).getD c [] ∈
      p.spk (generateGreedy p.m prompt t).dropLast
        ((generateGreedy p.m prompt t).getLastD 0) :=
    getD_mem _ c (by rw [hclen]; exact hc) []
  have hsfx_len : ((p.spk (generateGreedy p.m prompt t).dropLast
      ((generateGreedy p.m prompt t).getLastD 0)).getD c []).length =
      p.n_adds - 1 :=
    (hspk _ _).2 _ hsfx_mem
  have hctx : rowCtx p s c = (generateGreedy p.m prompt t).dropLast := by
    rw [rowCtx, Nat.div_eq_of_lt hc, hlook]
  have hfull : (generateGreedy p.m prompt t).dropLast ++
      [(generateGreedy p.m prompt t).getLastD 0] =
      generateGreedy p.m prompt t := dropLast_append_getLastD _ hgne
  have hhead := hwrong (generateGreedy p.m prompt t).dropLast
    ((generateGreedy p.m prompt t).getLastD 0) _ hsfx_mem
  rw [hfull] at hhead
  rcases hsx : (p.spk (generateGreedy p.m prompt t).dropLast
      ((generateGreedy p.m prompt t).getLastD 0)).getD c [] with _ | ⟨x, s2⟩
  · rw [hsx] at hsfx_len
    simp at hsfx_len
    omega
  · rw [hsx] at hcand hhead
    have hxne : x ≠ p.m (generateGreedy p.m prompt t) := by
      intro he
      exact hhead (by rw [he]; rfl)
    rw [nCorrectRow, testRow, rowNextVals, hcand, hctx]
    have hroll : rollL ((generateGreedy p.m prompt t).getLastD 0 :: x :: s2) =
        x :: (s2 ++ [(generateGreedy p.m prompt t).getLastD 0]) := by
      rw [rollL]
      simp
    rw [hroll, predsRow_cons]
    have htake : ((generateGreedy p.m prompt t).getLastD 0 :: x :: s2).take 1 =
        [(generateGreedy p.m prompt t).getLastD 0] := rfl
    rw [List.zipWith_cons_cons]
    have hbeq : (x == p.m ((generateGreedy p.m prompt t).dropLast ++
        [(generateGreedy p.m prompt t).getLastD 0])) = false := by
      rw [hfull]
      exact beq_eq_false_iff_ne.mpr hxne
    rw [hbeq, leadingOnes_cons_false]
    simp

theorem ginv_ncList (p : SDParams) (prompt : List Token) (t : Nat)
    (s : SpecState) (hg : GInv p prompt t s) (hspk : SpkWF p)
    (ha2 : 2 ≤ p.n_adds) (hpr : prompt ≠ [])
    (hwrong : ∀ e tk sfx, sfx ∈ p.spk e tk →
      sfx.head? ≠ some (p.m (e ++ [tk]))) :
    ncListOf p s 0 = List.replicate p.top_k 0 := by
  have hbs : bsizeOf s = 1 := hg.2.2.2.1
  rw [List.eq_replicate_iff]
  constructor
  · rw [ncListOf_length]
  · intro x hx
    rw [ncListOf] at hx
    rcases List.mem_map.mp hx with ⟨c, hcr, rfl⟩
    have hc : c < p.top_k := List.mem_range.mp hcr
    have harg : c * bsizeOf s + 0 = c := by rw [hbs]; omega
    rw [harg]
    exact ginv_nCorrectRow_zero p prompt t s hg hspk ha2 hpr hwrong c hc

theorem ginv_best_nc (p : SDParams) (prompt : List Token) (t : Nat)
    (s : SpecState) (hg : GInv p prompt t s) (hspk : SpkWF p)
    (ha2 : 2 ≤ p.n_adds) (hpr : prompt ≠ [])
    (hwrong : ∀ e tk sfx, sfx ∈ p.spk e tk →
      sfx.head? ≠ some (p.m (e ++ [tk]))) :
    bestOf p s 0 = 0 ∧ ncOf p s 0 = 0 := by
  have hnl := ginv_ncList p prompt t s hg hspk ha2 hpr hwrong
  constructor
  · rw [bestOf, hnl, argmaxFirst_replicate_zero]
  · rw [ncOf, hnl, bestOf, hnl, argmaxFirst_replicate_zero, getD_replicate]

theorem ginv_accepted (p : SDParams) (prompt : List Token) (t : Nat)
    (s : SpecState) (hg : GInv p prompt t s) (hspk : SpkWF p)
    (hk : 1 ≤ p.top_k) (ha2 : 2 ≤ p.n_adds) (hpr : prompt ≠ [])
    (hwrong : ∀ e tk sfx, sfx ∈ p.spk e tk →
      sfx.head? ≠ some (p.m (e ++ [tk]))) :
    acceptedOf p s 0 = [p.m (generateGreedy p.m prompt t)] ∧
    rowInput p s 0 =
      (generateGreedy p.m prompt t).getLastD 0 ::
        (p.spk (generateGreedy p.m prompt t).dropLast
          ((generateGreedy p.m prompt t).getLastD 0)).getD 0 [] := by
  obtain ⟨hres, hngen, hstep, hb1, hwf, hparb, hlook, hemb, hlast⟩ := hg
  have hg2 : GInv p prompt t s :=
    ⟨hres, hngen, hstep, hb1, hwf, hparb, hlook, hemb, hlast⟩
  have hbs : bsizeOf s = 1 := hb1
  have hbn := ginv_best_nc p prompt t s hg2 hspk ha2 hpr hwrong
  have hgne : generateGreedy p.m prompt t ≠ [] :=
    generateGreedy_ne_nil p.m prompt t hpr
  have hsel : selRow p s 0 = 0 := by
    rw [selRow, hbn.1]
    omega
  have hclen : (p.spk (generateGreedy p.m prompt t).dropLast
      ((generateGreedy p.m prompt t).getLastD 0)).length = p.top_k :=
    (hspk _ _).1
  have hrow : rowInput p s 0 = (candsOf p s 0).getD 0 [] := by
    rw [rowInput, hbs, Nat.mod_one, Nat.div_one]
  have hcand : rowInput p s 0 =
      (generateGreedy p.m prompt t).getLastD 0 ::
        (p.spk (generateGreedy p.m prompt t).dropLast
          ((generateGreedy p.m prompt t).getLastD 0)).getD 0 [] := by
    rw [hrow, ginv_cands p prompt t s hg2]
    rw [getD_map _ _ 0 (by rw [hclen]; omega) []]
  refine ⟨?_, hcand⟩
  have hctx : rowCtx p s 0 = (generateGreedy p.m prompt t).dropLast := by
    rw [rowCtx, Nat.zero_div, hlook]
  have hfull : (generateGreedy p.m prompt t).dropLast ++
      [(generateGreedy p.m prompt t).getLastD 0] =
      generateGreedy p.m prompt t := dropLast_append_getLastD _ hgne
  rw [acceptedOf, hbn.2, hsel, rowNextVals, hcand, hctx, predsRow_cons]
  simp only [List.take_succ_cons, List.take_zero]
  rw [hfull]

theorem specStep_parents_bound (p : SDParams) (s : SpecState)
    (hk : 1 ≤ p.top_k) :
    ∀ pid ∈ (specStep p s).parentIds, pid < (specStep p s).cache.nextId := by
  intro pid hpid
  rw [specStep_parentIds, reconcile_parents] at hpid
  rcases List.mem_map.mp hpid with ⟨tr, htr, rfl⟩
  have hlen : tr.1.length = p.top_k :=
    chunked_len _ _ (stepTriples_chunked p s) tr htr
  have hbl : tr.2.1 < p.top_k := stepTriples_bests_lt p s hk tr htr
  have hwm : winnerOfTriple tr ∈ tr.1 := getD_mem _ _ (by omega) 0
  have hub := chunked_ids_lt (stepTriples p s) s.cache.nextId
    (stepTriples_chunked p s) tr htr _ hwm
  rw [stepTriples_length] at hub
  rw [specStep_nextId]
  omega

theorem padLen_single (l : List Token) : padLen [l] = l.length := by
  simp [padLen, maxList]

theorem padRow_self (l : List Token) : padRow l.length l = l := by
  simp [padRow, Nat.sub_self]

theorem GInv_initState (p : SDParams) (prompt : List Token) :
    GInv p prompt 0 (initState [prompt]) := by
  have hinv := Inv_initState p [prompt]
  have hpl : padLen [prompt] = prompt.length := padLen_single prompt
  have hpadded : [prompt].map (padRow (padLen [prompt])) = [prompt] := by
    rw [List.map_cons, List.map_nil, hpl, padRow_self]
  refine ⟨rfl, rfl, rfl, ?_, initState_cacheWF [prompt], hinv.2.2.2.2.1, ?_,
    ?_, ?_⟩
  · exact initState_bsize [prompt]
  · rw [initState_parentIds_getD [prompt] 0 (by simp)]
    unfold PagedKVCache.lookup
    rw [initState_store [prompt] 0 (by simp)]
    show ((padRow (padLen [prompt]) (([prompt] : List (List Token)).getD 0 [])).dropLast) = _
    rw [List.getD_cons_zero, hpl, padRow_self]
    rfl
  · show ([prompt].map (padRow (padLen [prompt]))).map List.dropLast =
      [(generateGreedy p.m prompt 0).dropLast]
    rw [hpadded]
    rfl
  · show ([prompt].map (padRow (padLen [prompt]))).map
      (fun r => r.getLastD 0) = [(generateGreedy p.m prompt 0).getLastD 0]
    rw [hpadded]
    rfl

theorem GInv_specStep (p : SDParams) (prompt : List Token) (t : Nat)
    (s : SpecState) (hg : GInv p prompt t s) (hspk : SpkWF p)
    (hk : 1 ≤ p.top_k) (ha2 : 2 ≤ p.n_adds) (hpr : prompt ≠ [])
    (hwrong : ∀ e tk sfx, sfx ∈ p.spk e tk →
      sfx.head? ≠ some (p.m (e ++ [tk]))) :
    GInv p prompt (t + 1) (specStep p s) := by
  have ha : 1 ≤ p.n_adds := by omega
  obtain ⟨hres, hngen, hstep, hb1, hwf, hparb, hlook, hemb, hlast⟩ := hg
  have hg2 : GInv p prompt t s :=
    ⟨hres, hngen, hstep, hb1, hwf, hparb, hlook, hemb, hlast⟩
  have hbs : bsizeOf s = 1 := hb1
  have hbn := ginv_best_nc p prompt t s hg2 hspk ha2 hpr hwrong
  have hacc := ginv_accepted p prompt t s hg2 hspk hk ha2 hpr hwrong
  have hgne : generateGreedy p.m prompt t ≠ [] :=
    generateGreedy_ne_nil p.m prompt t hpr
  have hfull : (generateGreedy p.m prompt t).dropLast ++
      [(generateGreedy p.m prompt t).getLastD 0] =
      generateGreedy p.m prompt t := dropLast_append_getLastD _ hgne
  have hsucc := generateGreedy_succ p.m prompt t
  have h0b : (0 : Nat) < bsizeOf s := by omega
  have hrange1 : List.range (bsizeOf s) = [0] := by
    rw [hbs]
    rfl
  refine ⟨?_, ?_, ?_, ?_, specStep_cacheWF p s hk hwf,
    specStep_parents_bound p s hk, ?_, ?_, ?_⟩
  · rw [specStep_result, hrange1, List.map_cons, List.map_nil, hres,
      List.getD_cons_zero, hacc.1, hsucc]
  · rw [specStep_nGen, hrange1, List.map_cons, List.map_nil, hngen,
      List.getD_cons_zero, hbn.2]
  · rw [specStep_nSteps, hstep]
  · show bsizeOf (specStep p s) = 1
    rw [specStep_bsize]
    exact hb1
  · have hws := specStep_winner_store p s 0 hspk ha hk h0b hparb
    have h00 : (0 : Nat) * p.top_k + bestOf p s 0 = 0 := by
      rw [hbn.1]
      omega
    rw [h00] at hws
    rw [specStep_parentIds_getD p s 0 hk h0b, h00]
    unfold PagedKVCache.lookup
    rw [hws, hbn.2, hlook, hacc.2]
    show (generateGreedy p.m prompt t).dropLast ++
      [(generateGreedy p.m prompt t).getLastD 0] = _
    rw [hfull, hsucc, List.dropLast_concat]
  · show (List.range (bsizeOf s)).map (newEmbedCtx p s) = _
    rw [hrange1, List.map_cons, List.map_nil]
    have hsel : selRow p s 0 = 0 := by
      rw [selRow, hbn.1]
      omega
    have hctx : rowCtx p s 0 = (generateGreedy p.m prompt t).dropLast := by
      rw [rowCtx, Nat.zero_div, hlook]
    rw [newEmbedCtx, hsel, hctx, hbn.2, hacc.2]
    show [(generateGreedy p.m prompt t).dropLast ++
      [(generateGreedy p.m prompt t).getLastD 0]] = _
    rw [hfull, hsucc, List.dropLast_concat]
  · show (List.range (bsizeOf s)).map
        (fun i => (acceptedOf p s i).getLastD 0) = _
    rw [hrange1, List.map_cons, List.map_nil, hacc.1, hsucc]
    simp

theorem GInv_loop (p : SDParams) (prompt : List Token) (hspk : SpkWF p)
    (hk : 1 ≤ p.top_k) (ha2 : 2 ≤ p.n_adds) (hpr : prompt ≠ [])
    (hwrong : ∀ e tk sfx, sfx ∈ p.spk e tk →
      sfx.head? ≠ some (p.m (e ++ [tk]))) :
    ∀ (f t : Nat) (s : SpecState), GInv p prompt t s →
      t + f = p.new_tokens →
      GInv p prompt p.new_tokens (specLoop p f s) := by
  intro f
  induction f with
  | zero =>
    intro t s hg hf
    rw [specLoop]
    have : t = p.new_tokens := by omega
    rw [← this]
    exact hg
  | succ f' ih =>
    intro t s hg hf
    rw [specLoop]
    have hmin : minList s.nGen = t := by
      rw [hg.2.1]
      rfl
    by_cases hc : p.new_tokens ≤ minList s.nGen
    · rw [if_pos hc]
      rw [hmin] at hc
      have : t = p.new_tokens := by omega
      rw [← this]
      exact hg
    · rw [if_neg hc]
      exact ih (t + 1) (specStep p s)
        (GInv_specStep p prompt t s hg hspk hk ha2 hpr hwrong) (by omega)

/-- C4: with a speculator whose proposals are always rejected (its first
proposed token never matches the model's argmax continuation),
`speculative_generate` produces token-for-token the greedy decode of the
same prompt under the same model — the same output `generate` returns with
`do_sample=False` — differing only in the number of rounds executed. -/
theorem C4_greedy_equivalence (p : SDParams) (prompt : List Token)
    (hspk : SpkWF p) (hk : 1 ≤ p.top_k) (ha2 : 2 ≤ p.n_adds)
    (hpr : prompt ≠ [])
    (hwrong : ∀ e tk sfx, sfx ∈ p.spk e tk →
      sfx.head? ≠ some (p.m (e ++ [tk]))) :
    speculative_generate p [prompt] =
      ([generateGreedy p.m prompt p.new_tokens], p.new_tokens) ∧
    generate p.m (GenInput.tensor1d prompt) p.new_tokens 1 =
      .ok [generateGreedy p.m prompt p.new_tokens] := by
  have hrun : GInv p prompt p.new_tokens (runState p [prompt]) :=
    GInv_loop p prompt hspk hk ha2 hpr hwrong p.new_tokens 0
      (initState [prompt]) (GInv_initState p prompt) (by omega)
  constructor
  · show ((runState p [prompt]).result, (runState p [prompt]).nSteps) = _
    rw [hrun.1, hrun.2.2.1]
  · simp [generate]

/-- C4 witness: a constant-5 model with a speculator that always proposes
token 6: three rounds produce exactly the greedy decode `[9, 5, 5, 5]`. -/
theorem C4_witness :
    speculative_generate
        ⟨fun _ => 5, fun _ _ => [[6], [6]], 2, 2, 3⟩ [[9]] =
      ([generateGreedy (fun _ => 5) [9] 3], 3) :=
  (C4_greedy_equivalence ⟨fun _ => 5, fun _ _ => [[6], [6]], 2, 2, 3⟩ [9]
    (by
      intro e tk
      refine ⟨rfl, ?_⟩
      intro sfx hs
      rcases List.mem_cons.mp hs with h1 | h2
      · subst h1; rfl
      · rcases List.mem_cons.mp h2 with h3 | h4
        · subst h3; rfl
        · cases h4)
    (by decide) (by decide) (by decide)
    (by
      intro e tk sfx hs
      rcases List.mem_cons.mp hs with h1 | h2
      · subst h1
        simp
      · rcases List.mem_cons.mp h2 with h3 | h4
        · subst h3
          simp
        · cases h4)).1

end FMS
